import Mathlib

/-!
Verification model of the batched, ownership-aware sort operator
(`SortBlock::doSorting`, `OurLessThan`, `SortBlock::getOrSkipSomeOld` from
`arangod/Aql/SortBlock.cpp`).

The embedding is shallow: rows are lists of cells, a cell is an optional
`AqlValue`, a complex value is identified by the identity of its underlying
storage (`root`) plus a clone generation (`gen`), so that a clone compares
unequal to its original (AqlValue equality/hash is by storage identity) while
the provenance of the underlying data stays visible.  Machine 32-bit counters
are modelled as `Nat` with explicit `% 2^32`.  Fallible code returns `Except`;
the error payload is the state of the buffered set at the moment the rollback
handler finished (the in-progress output batches are destroyed by the
`catch` block, so only the source buffer survives an aborted pass).
-/

/-- Modulus of a 32-bit unsigned integer (`uint32_t`). -/
def U32 : Nat := 4294967296

/-- An AQL value: either an inline scalar that is freely copyable, or a
reference to complex heap-backed storage that requires destruction.
`root` is the identity of the original underlying storage; `gen` distinguishes
clones (a clone receives a fresh `gen`, so it is a different value by identity,
but shares the same `root` provenance). -/
inductive AqlValue where
  | simple (n : Int)
  | complex (root : Nat) (gen : Nat)
deriving DecidableEq

/-- Whether the value holds heap-backed storage that must be destroyed
(`AqlValue::requiresDestruction`). -/
def AqlValue.requiresDestruction : AqlValue → Bool
  | .simple _ => false
  | .complex _ _ => true

/-- Deep copy of the underlying storage (`AqlValue::clone`): the clone is a new
value by identity (fresh `gen`) referring to a copy of the same underlying
data (same `root`). -/
def AqlValue.clone (v : AqlValue) (fresh : Nat) : AqlValue :=
  match v with
  | .simple n => .simple n
  | .complex root _ => .complex root fresh

/-- Look up the reference count recorded for a value in a block's
value-count table; absent means 0. -/
def lookupCount (counts : List (AqlValue × Nat)) (v : AqlValue) : Nat :=
  match counts.find? (fun p => p.1 == v) with
  | some p => p.2
  | none => 0

/-- Increment the recorded count of `v` (inserting it with count 1 if absent). -/
def incCount (counts : List (AqlValue × Nat)) (v : AqlValue) : List (AqlValue × Nat) :=
  match counts with
  | [] => [(v, 1)]
  | p :: rest => if p.1 == v then (p.1, p.2 + 1) :: rest else p :: incCount rest v

/-- Decrement the recorded count of `v`; when the count reaches zero the entry
is removed (and the underlying storage is destroyed by the owning block). -/
def decCount (counts : List (AqlValue × Nat)) (v : AqlValue) : List (AqlValue × Nat) :=
  match counts with
  | [] => []
  | p :: rest =>
    if p.1 == v then
      if p.2 ≤ 1 then rest else (p.1, p.2 - 1) :: rest
    else p :: decCount rest v

/-- Remove the entry of `v` entirely (the block gives up responsibility for the
storage without destroying it). -/
def removeCount (counts : List (AqlValue × Nat)) (v : AqlValue) : List (AqlValue × Nat) :=
  counts.filter (fun p => !(p.1 == v))

/-- Modelled from the spec: a Row Batch (`AqlItemBlock`, whose implementation
is not under src/) is a fixed-shape table of rows of cells together with a
per-distinct-storage reference count ("a count of how many cells in that batch
currently reference it").  A cell is `none` when empty. -/
structure AqlItemBlock where
  nrRegs : Nat
  data : List (List (Option AqlValue))
  counts : List (AqlValue × Nat)
deriving DecidableEq

/-- Number of rows of a block (`AqlItemBlock::size`). -/
def AqlItemBlock.size (b : AqlItemBlock) : Nat := b.data.length

/-- Modelled from the spec: read the cell at `(row, reg)`
(`AqlItemBlock::getValueReference`); out-of-shape positions read as empty. -/
def AqlItemBlock.getValueReference (b : AqlItemBlock) (row reg : Nat) : Option AqlValue :=
  (b.data.getD row []).getD reg none

/-- Modelled from the spec: how many cells of this batch currently reference
the storage of `v` (`AqlItemBlock::valueCount`). -/
def AqlItemBlock.valueCount (b : AqlItemBlock) (v : AqlValue) : Nat :=
  lookupCount b.counts v

/-- Write a cell of a row table (a no-op outside the table's shape). -/
def setCell (data : List (List (Option AqlValue))) (row reg : Nat) (v : Option AqlValue) :
    List (List (Option AqlValue)) :=
  data.set row ((data.getD row []).set reg v)

/-- Modelled from the spec: store `v` into cell `(row, reg)`
(`AqlItemBlock::setValue`); a destruction-requiring value additionally gets its
reference count in this batch increased. -/
def AqlItemBlock.setValue (b : AqlItemBlock) (row reg : Nat) (v : AqlValue) : AqlItemBlock :=
  { b with
    data := setCell b.data row reg (some v)
    counts := if v.requiresDestruction then incCount b.counts v else b.counts }

/-- Modelled from the spec: erase the reference at cell `(row, reg)`
(`AqlItemBlock::eraseValue`): the cell becomes empty and, for a
destruction-requiring value, the batch's reference count for that storage is
decreased (destroying the storage when it reaches zero). -/
def AqlItemBlock.eraseValue (b : AqlItemBlock) (row reg : Nat) : AqlItemBlock :=
  match b.getValueReference row reg with
  | some v =>
    { b with
      data := setCell b.data row reg none
      counts := if v.requiresDestruction then decCount b.counts v else b.counts }
  | none => { b with data := setCell b.data row reg none }

/-- Modelled from the spec: transfer responsibility for the storage of `v` out
of this batch (`AqlItemBlock::steal`): the batch's bookkeeping entry is dropped
without copying or destroying the data. -/
def AqlItemBlock.steal (b : AqlItemBlock) (v : AqlValue) : AqlItemBlock :=
  { b with counts := removeCount b.counts v }

/-- Allocate a fresh output block of the given shape with all cells empty
(`ExecutionBlock::requestBlock`). -/
def requestBlock (n nrRegs : Nat) : AqlItemBlock :=
  ⟨nrRegs, List.replicate n (List.replicate nrRegs none), []⟩

/-- A sort register descriptor: column index, direction flag, and the
three-way comparator (the tuple built by `fillSortRegisters`; the opaque
prepared-comparator state is absorbed into the comparator function). -/
structure SortRegister where
  regId : Nat
  ascending : Bool
  cmp : Option AqlValue → Option AqlValue → Int

/-- A coordinate: (block index, row index inside the block). -/
abbrev Coord := Nat × Nat

/-- Fetch the cell a coordinate and register designate inside the buffered set
(`_buffer[a.first]->getValueReference(a.second, reg)`). -/
def cellAt (buffer : List AqlItemBlock) (c : Coord) (reg : Nat) : Option AqlValue :=
  (buffer.getD c.1 (requestBlock 0 0)).getValueReference c.2 reg

/-- The row comparator `OurLessThan::operator()`: iterate the sort registers in
order; the first register whose comparator reports a strict difference decides
according to the register's direction flag; ties fall through; if every
register ties the result is `false`. -/
def ourLessThan (buffer : List AqlItemBlock) (regs : List SortRegister) (a b : Coord) : Bool :=
  match regs with
  | [] => false
  | reg :: rest =>
    let cmp := reg.cmp (cellAt buffer a reg.regId) (cellAt buffer b reg.regId)
    if cmp < 0 then reg.ascending
    else if cmp > 0 then !reg.ascending
    else ourLessThan buffer rest a b

/-- Direction-adjusted three-way comparison of one register at two coordinates
(ascending keeps the comparator's sign, descending flips it). -/
def dirCmp (reg : SortRegister) (buffer : List AqlItemBlock) (a b : Coord) : Int :=
  let c := reg.cmp (cellAt buffer a reg.regId) (cellAt buffer b reg.regId)
  if reg.ascending then c else -c

/-- Lexicographic three-way comparison of two coordinates over the register
list: the first register with a nonzero direction-adjusted comparison decides. -/
def rowCmp (buffer : List AqlItemBlock) (regs : List SortRegister) (a b : Coord) : Int :=
  match regs with
  | [] => 0
  | reg :: rest =>
    let c := dirCmp reg buffer a b
    if c = 0 then rowCmp buffer rest a b else c

/-- The coordinate array installed by `doSorting`: one entry per buffered row,
in buffer order.  The running block counter is a `uint32_t` and each block's
row count passes through `static_cast<uint32_t>`, hence the `% U32`. -/
def buildCoords (buffer : List AqlItemBlock) : List Coord :=
  (List.range buffer.length).flatMap (fun idx =>
    (List.range ((buffer.getD idx (requestBlock 0 0)).size % U32)).map
      (fun i => (idx % U32, i)))

/-- The coordinate array a mathematically exact (unbounded) counter would
install: one entry per buffered row, with true block and row indices. -/
def idealCoords (buffer : List AqlItemBlock) : List Coord :=
  (List.range buffer.length).flatMap (fun idx =>
    (List.range (buffer.getD idx (requestBlock 0 0)).size).map (fun i => (idx, i)))

/-- The non-strict comparison the sort runs on: `a` may stay before `b` iff the
row comparator does not report that `b` strictly precedes `a`. -/
def sortLE (buffer : List AqlItemBlock) (regs : List SortRegister) (a b : Coord) : Bool :=
  !(ourLessThan buffer regs b a)

/-- The non-strict sort relation as a decidable proposition. -/
def sortRel (buffer : List AqlItemBlock) (regs : List SortRegister) : Coord → Coord → Prop :=
  fun a b => sortLE buffer regs a b = true

instance sortRelDecidable (buffer : List AqlItemBlock) (regs : List SortRegister) :
    DecidableRel (sortRel buffer regs) :=
  fun a b => inferInstanceAs (Decidable (sortLE buffer regs a b = true))

/-- The sorted coordinate order `doSorting` rebuilds its output in.  The
stable branch (`std::stable_sort`) is modelled by the stable sorting algorithm
`List.insertionSort`, which realises exactly the stable-sort contract (a
sorted permutation preserving the relative order of ties); the unstable branch
(`std::sort`) promises only a sorted permutation, a contract this model also
satisfies (see `isValidSortResult` for the bare contract of the unstable
branch). -/
def doSortingOrder (buffer : List AqlItemBlock) (regs : List SortRegister) : List Coord :=
  List.insertionSort (sortRel buffer regs) (buildCoords buffer)

/-- The postcondition C++ guarantees for `std::sort` and `std::stable_sort`
alike: the output is a permutation of the input and is sorted in the sense
that no element strictly precedes its predecessor. -/
def isValidSortResult (lt : Coord → Coord → Bool) (input output : List Coord) : Prop :=
  output.Perm input ∧ output.Chain' (fun x y => lt y x = false)

/-- The debug fault-injection checkpoints (`TRI_IF_FAILURE`) inside
`doSorting`. -/
inductive FailurePoint where
  | doSortingStart
  | doSortingInner
  | doSortingCache
  | doSortingNext1
  | doSortingNext2
deriving DecidableEq

/-- A fault oracle: which checkpoints are armed.  An armed checkpoint throws
every time control reaches it. -/
abbrev FaultOracle := FailurePoint → Bool

/-- The oracle with no armed checkpoint. -/
def noFaults : FaultOracle := fun _ => false

/-- Observable effects of processing one destination cell, in the order the
source statements execute them. -/
inductive RebuildEvent where
  | setDst (i j : Nat) (v : AqlValue)
  | eraseSrc (b r j : Nat)
  | stealSrc (b : Nat) (v : AqlValue)
  | cacheIns (k v : AqlValue)
deriving DecidableEq

/-- State threaded through the rebuild of one output chunk: the buffered
source set, the output block currently being populated (`next`), the
per-output-batch dedup cache, and the next fresh clone generation. -/
structure RebuildState where
  buffer : List AqlItemBlock
  cur : AqlItemBlock
  cache : List (AqlValue × AqlValue)
  fresh : Nat
deriving DecidableEq

/-- Look up a value by identity in the per-output-batch dedup cache. -/
def cacheFind (cache : List (AqlValue × AqlValue)) (v : AqlValue) : Option AqlValue :=
  match cache.find? (fun p => p.1 == v) with
  | some p => some p.2
  | none => none

/-- Erase the reference at one cell of one block of the buffered set
(`_buffer[b]->eraseValue(r, j)`). -/
def eraseBuf (buffer : List AqlItemBlock) (b r j : Nat) : List AqlItemBlock :=
  buffer.set b ((buffer.getD b (requestBlock 0 0)).eraseValue r j)

/-- Processing of one destination cell `(i, j)` from source coordinate `src`,
translated from the body of the innermost loop of `doSorting` (the empty,
cache-hit, clone, steal and simple-copy paths, with the armed checkpoints
throwing where `TRI_IF_FAILURE` sits in the source).  On a throw the error
carries the buffered set as the rollback handler leaves it.  The returned
event list records the observable effects in statement order. -/
def processCell (faults : FaultOracle) (st : RebuildState) (src : Coord) (i j : Nat) :
    Except (List AqlItemBlock) (RebuildState × List RebuildEvent) :=
  match cellAt st.buffer src j with
  | none => .ok (st, [])
  | some a =>
    if a.requiresDestruction then
      match cacheFind st.cache a with
      | some cached =>
        .ok ({ st with buffer := eraseBuf st.buffer src.1 src.2 j,
                       cur := st.cur.setValue i j cached },
             [.eraseSrc src.1 src.2 j, .setDst i j cached])
      | none =>
        if (st.buffer.getD src.1 (requestBlock 0 0)).valueCount a = 0 then
          if faults .doSortingCache then .error st.buffer
          else if faults .doSortingNext1 then .error st.buffer
          else
            .ok ({ st with buffer := eraseBuf st.buffer src.1 src.2 j,
                           cur := st.cur.setValue i j (a.clone st.fresh),
                           cache := st.cache ++ [(a, a.clone st.fresh)],
                           fresh := st.fresh + 1 },
                 [.cacheIns a (a.clone st.fresh), .setDst i j (a.clone st.fresh),
                  .eraseSrc src.1 src.2 j])
        else
          if faults .doSortingNext2 then .error st.buffer
          else
            .ok ({ st with
                   buffer := eraseBuf
                     (st.buffer.set src.1 ((st.buffer.getD src.1 (requestBlock 0 0)).steal a))
                     src.1 src.2 j,
                   cur := st.cur.setValue i j a,
                   cache := st.cache ++ [(a, a)] },
                 [.setDst i j a, .stealSrc src.1 a, .eraseSrc src.1 src.2 j, .cacheIns a a])
    else
      if faults .doSortingCache then .error st.buffer
      else if faults .doSortingNext1 then .error st.buffer
      else if faults .doSortingNext2 then .error st.buffer
      else
        .ok ({ st with buffer := eraseBuf st.buffer src.1 src.2 j,
                       cur := st.cur.setValue i j a },
             [.setDst i j a, .eraseSrc src.1 src.2 j])

/-- Process all registers of one destination row (the `for j < nrRegs` loop). -/
def processRegs (faults : FaultOracle) (st : RebuildState) (src : Coord) (i : Nat) :
    List Nat → Except (List AqlItemBlock) RebuildState
  | [] => .ok st
  | j :: js =>
    match processCell faults st src i j with
    | .error e => .error e
    | .ok (st1, _) => processRegs faults st1 src i js

/-- Process the rows of one output chunk (the `for i < sizeNext` loop):
destination row `i` is filled from the `i`-th coordinate of the chunk. -/
def processRows (faults : FaultOracle) (nrRegs : Nat) (st : RebuildState) (i : Nat) :
    List Coord → Except (List AqlItemBlock) RebuildState
  | [] => .ok st
  | c :: cs =>
    match processRegs faults st c i (List.range nrRegs) with
    | .error e => .error e
    | .ok st1 => processRows faults nrRegs st1 (i + 1) cs

/-- Accumulator of the outer rebuild loop: the draining source set, the fully
built output batches so far (`newbuffer`), and the clone-generation counter. -/
structure RebuildAcc where
  buffer : List AqlItemBlock
  done : List AqlItemBlock
  fresh : Nat
deriving DecidableEq

/-- The outer `while (count < sum)` loop of `doSorting`: allocate one output
block of `min(remaining, DefaultBatchSize)` rows (the `doSortingInner`
checkpoint sits between the allocation and its registration), populate it from
the next chunk of sorted coordinates, append it to the output list and clear
the dedup cache.  Structural recursion uses a fuel argument initialised to the
coordinate count; fuel cannot run out while `0 < bs` because every iteration
consumes at least one coordinate (the fuel-exhaustion branch is proved
unreachable in that case). -/
def rebuildLoop (faults : FaultOracle) (bs nrRegs : Nat) :
    Nat → RebuildAcc → List Coord → Except (List AqlItemBlock) RebuildAcc
  | _, acc, [] => .ok acc
  | 0, acc, _ :: _ => .error acc.buffer
  | fuel + 1, acc, c :: cs =>
    if faults .doSortingInner then .error acc.buffer
    else
      match processRows faults nrRegs
          ⟨acc.buffer, requestBlock (min (c :: cs).length bs) nrRegs, [], acc.fresh⟩ 0
          ((c :: cs).take (min (c :: cs).length bs)) with
      | .error e => .error e
      | .ok st =>
        rebuildLoop faults bs nrRegs fuel
          ⟨st.buffer, acc.done ++ [st.cur], st.fresh⟩
          ((c :: cs).drop (min (c :: cs).length bs))

/-- The largest clone generation appearing anywhere in the buffered set; fresh
generations start above it so a clone never collides with an existing value. -/
def maxGen (buffer : List AqlItemBlock) : Nat :=
  (buffer.map (fun blk =>
    (blk.data.map (fun row =>
      (row.map (fun cell =>
        match cell with
        | some (.complex _ g) => g
        | _ => 0)).foldr max 0)).foldr max 0)).foldr max 0

/-- `SortBlock::doSorting`: install the coordinate array, sort it with the row
comparator (`std::stable_sort` when the stable flag is set, `std::sort`
otherwise; both produce the sorted permutation modelled by `doSortingOrder`),
then rebuild the buffered set into fresh output batches in sorted order.  On
success the output list replaces the buffered set; on a throw every output
batch built in this pass is destroyed and the error carries the surviving
buffered set.  `bs` stands for `DefaultBatchSize()`. -/
def doSorting (faults : FaultOracle) (stable : Bool) (regs : List SortRegister) (bs : Nat)
    (buffer : List AqlItemBlock) : Except (List AqlItemBlock) (List AqlItemBlock) :=
  if faults .doSortingStart then .error buffer
  else
    match rebuildLoop faults bs (buffer.headD (requestBlock 0 0)).nrRegs
        (doSortingOrder buffer regs).length ⟨buffer, [], maxGen buffer + 1⟩
        (doSortingOrder buffer regs) with
    | .error e => .error e
    | .ok acc => .ok acc.done

/-- State of the operator relevant to `getOrSkipSomeOld`: the fetch-all flag
and the buffered set. -/
structure SortBlockState where
  mustFetchAll : Bool
  buffer : List AqlItemBlock
deriving DecidableEq

/-- Result of the buffering-and-sort prelude of one `getOrSkipSomeOld` call:
the successor state, whether `doSorting` was invoked, whether the pass
succeeded, and whether the operator proceeds straight to the done state.
The last flag is modelled from the spec: an empty buffered set transitions
straight to Exhausted (the downstream consumption itself happens in
`ExecutionBlock::getOrSkipSome`, which is not under src/). -/
structure PreludeResult where
  state : SortBlockState
  sortInvoked : Bool
  ok : Bool
  goesExhausted : Bool
deriving DecidableEq

/-- The prelude of `SortBlock::getOrSkipSomeOld`: while the fetch-all flag is
set, suck all upstream blocks into the buffer, clear the flag (before any
sorting, so a faulted pass is not retried on the next call), and invoke
`doSorting` exactly when the buffered set is non-empty. -/
def getOrSkipPrelude (faults : FaultOracle) (stable : Bool) (regs : List SortRegister)
    (bs : Nat) (s : SortBlockState) (incoming : List AqlItemBlock) : PreludeResult :=
  if s.mustFetchAll then
    let buf := s.buffer ++ incoming
    if buf.isEmpty then ⟨⟨false, buf⟩, false, true, true⟩
    else
      match doSorting faults stable regs bs buf with
      | .ok newbuf => ⟨⟨false, newbuf⟩, true, true, false⟩
      | .error b1 => ⟨⟨false, b1⟩, true, false, false⟩
  else ⟨s, false, true, s.buffer.isEmpty⟩

/-- The chunk sizes the rebuild loop allocates for `n` remaining rows with
batch capacity `bs`: always `min(remaining, bs)`.  Fuel-structural like
`rebuildLoop`. -/
def chunkSizesAux (bs : Nat) : Nat → Nat → List Nat
  | _, 0 => []
  | 0, _ + 1 => []
  | fuel + 1, n + 1 => min (n + 1) bs :: chunkSizesAux bs fuel (n + 1 - min (n + 1) bs)

/-- The chunk sizes for `n` rows at capacity `bs`. -/
def chunkSizes (bs n : Nat) : List Nat := chunkSizesAux bs n n

/-- Root identity of the underlying storage a value references, if complex. -/
def valRoot : AqlValue → Option Nat
  | .simple _ => none
  | .complex r _ => some r

/-- Whether a cell references (original or cloned) data of storage `root`. -/
def cellRefs (root : Nat) (cell : Option AqlValue) : Nat :=
  match cell with
  | some (.complex r _) => if r = root then 1 else 0
  | _ => 0

/-- Number of live cells of one block referencing data of storage `root`. -/
def blockRefs (root : Nat) (b : AqlItemBlock) : Nat :=
  (b.data.map (fun row => (row.map (cellRefs root)).sum)).sum

/-- Number of live cells across a block list referencing data of storage
`root`. -/
def buffersRefs (root : Nat) (bs : List AqlItemBlock) : Nat :=
  (bs.map (blockRefs root)).sum

/-- Per-cell safety order required by the spec: in the trace of one cell, no
erase of the source reference may happen before the destination assignment. -/
def eraseOnlyAfterSet : List RebuildEvent → Bool
  | [] => true
  | .eraseSrc _ _ _ :: _ => false
  | .setDst _ _ _ :: _ => true
  | _ :: rest => eraseOnlyAfterSet rest

/-- A concrete comparator for witnesses: compare cells by an integer rank
(empty cells rank 0, simple values by their payload, complex values by their
storage root). -/
def rankOf : Option AqlValue → Int
  | none => 0
  | some (.simple n) => n
  | some (.complex r _) => (r : Int)

/-- Three-way comparison by rank; satisfies sign-antisymmetry and
transitivity of the non-strict orders. -/
def rankCmp (v w : Option AqlValue) : Int := rankOf v - rankOf w

/-- Sign antisymmetry of the register comparators: a strict result in one
direction is the opposite strict result in the other (satisfied by
`AqlValue::Compare` and by `compareIResearchScores` when the prepared scorer
is a strict weak order). -/
def CmpAntisym (regs : List SortRegister) : Prop :=
  ∀ reg ∈ regs, ∀ v w, (reg.cmp v w < 0 ↔ 0 < reg.cmp w v)

/-- Transitivity of the non-strict order induced by each register comparator. -/
def CmpTransLE (regs : List SortRegister) : Prop :=
  ∀ reg ∈ regs, ∀ u v w, reg.cmp u v ≤ 0 → reg.cmp v w ≤ 0 → reg.cmp u w ≤ 0

/-- References a row of the buffered set holds to storage `root` in the first
`nr` registers. -/
def rowRefsAt (root : Nat) (buffer : List AqlItemBlock) (c : Coord) (nr : Nat) : Nat :=
  ((List.range nr).map (fun j => cellRefs root (cellAt buffer c j))).sum

/-- References held at a list of coordinates to storage `root`. -/
def coordsRefs (root : Nat) (buffer : List AqlItemBlock) (nr : Nat) (cs : List Coord) : Nat :=
  (cs.map (fun c => rowRefsAt root buffer c nr)).sum

/-- Invariant of the dedup cache: every entry maps a value to a value over the
same underlying storage (originals map to themselves, clones to their source's
root). -/
def CacheRootsOk (cache : List (AqlValue × AqlValue)) : Prop :=
  ∀ p ∈ cache, valRoot p.1 = valRoot p.2

/-- A single-register ascending sort configuration used by the witnesses. -/
def wregs : List SortRegister := [⟨0, true, rankCmp⟩]

/-- A small two-batch buffered set used by the witnesses. -/
def wbuf : List AqlItemBlock :=
  [⟨1, [[some (.simple 3)], [some (.simple 1)]], []⟩,
   ⟨1, [[some (.simple 2)]], []⟩]

/-- One buffered batch of one row whose first cell is a uniquely referenced
complex value and whose second cell is a simple value. -/
def c2buffer : List AqlItemBlock :=
  [⟨2, [[some (.complex 5 0), some (.simple 7)]], [(.complex 5 0, 1)]⟩]

/-- The oracle arming only the `doSortingCache` checkpoint. -/
def c2faults : FaultOracle := fun p => p == .doSortingCache

/-- The oracle arming only the `doSortingInner` checkpoint. -/
def onlyInner : FaultOracle := fun p => p == .doSortingInner

/-- One buffered batch of two rows, one register, both cells referencing the
same complex storage, with the exact reference count 2. -/
def c4buffer : List AqlItemBlock :=
  [⟨1, [[some (.complex 5 0)], [some (.complex 5 0)]], [(.complex 5 0, 2)]⟩]

/-- Rebuild state at the start of a pass over `c4buffer`. -/
def c4state : RebuildState := ⟨c4buffer, requestBlock 2 1, [], 1⟩

/-- Rebuild state mid-chunk: the complex value of the single source cell was
already transferred, so its identity sits in the dedup cache. -/
def c8state : RebuildState :=
  ⟨[⟨1, [[some (.complex 5 0)]], []⟩], requestBlock 2 1,
   [(.complex 5 0, .complex 5 0)], 9⟩

/-- A buffered set whose single batch has exactly `2^32` rows: the
`static_cast<uint32_t>` of its row count is 0. -/
def wrapBuffer : List AqlItemBlock := [⟨0, List.replicate U32 [], []⟩]

/-- A buffered set of one batch with two rows and no sort registers (every
row comparison ties), used to exhibit the missing stability guarantee of the
unstable branch. -/
def ex5buffer : List AqlItemBlock := [⟨1, [[some (.simple 1)], [some (.simple 2)]], []⟩]

/-- Equality of `Except` results is decidable componentwise (used to settle
concrete runs of the model by computation). -/
instance {e a : Type} [DecidableEq e] [DecidableEq a] : DecidableEq (Except e a) :=
  fun x y =>
    match x, y with
    | .error e1, .error e2 => decidable_of_iff (e1 = e2) (by simp)
    | .ok v1, .ok v2 => decidable_of_iff (v1 = v2) (by simp)
    | .error _, .ok _ => isFalse (by simp)
    | .ok _, .error _ => isFalse (by simp)

/-! ## Comparator lemmas -/

theorem ourLessThan_eq_rowCmp (buffer : List AqlItemBlock) (regs : List SortRegister)
    (a b : Coord) : ourLessThan buffer regs a b = decide (rowCmp buffer regs a b < 0) := by
  induction regs with
  | nil => simp [ourLessThan, rowCmp]
  | cons reg rest ih =>
    simp only [ourLessThan, rowCmp, dirCmp]
    rcases lt_trichotomy (reg.cmp (cellAt buffer a reg.regId) (cellAt buffer b reg.regId)) 0
      with h | h | h
    · by_cases hasc : reg.ascending <;>
        simp [hasc, h, not_lt_of_gt h, if_neg (by omega : ¬ (if reg.ascending then
          reg.cmp (cellAt buffer a reg.regId) (cellAt buffer b reg.regId) else
          -reg.cmp (cellAt buffer a reg.regId) (cellAt buffer b reg.regId)) = 0)] <;> omega
    · simp [h, ih]
    · by_cases hasc : reg.ascending <;> simp [hasc, h, not_lt_of_gt h] <;> omega

theorem dirCmp_anti (reg : SortRegister) (buffer : List AqlItemBlock)
    (h : ∀ v w, reg.cmp v w < 0 ↔ 0 < reg.cmp w v) (a b : Coord) :
    dirCmp reg buffer a b < 0 ↔ 0 < dirCmp reg buffer b a := by
  unfold dirCmp
  by_cases hasc : reg.ascending <;> simp only [hasc, if_true, if_false, Bool.false_eq_true]
  · exact h _ _
  · have h1 := h (cellAt buffer b reg.regId) (cellAt buffer a reg.regId)
    omega

theorem dirCmp_trans (reg : SortRegister) (buffer : List AqlItemBlock)
    (hanti : ∀ v w, reg.cmp v w < 0 ↔ 0 < reg.cmp w v)
    (htr : ∀ u v w, reg.cmp u v ≤ 0 → reg.cmp v w ≤ 0 → reg.cmp u w ≤ 0)
    (a b c : Coord) :
    dirCmp reg buffer a b ≤ 0 → dirCmp reg buffer b c ≤ 0 → dirCmp reg buffer a c ≤ 0 := by
  unfold dirCmp
  by_cases hasc : reg.ascending <;> simp only [hasc, if_true, if_false, Bool.false_eq_true]
  · exact htr _ _ _
  · intro h1 h2
    have e1 := hanti (cellAt buffer a reg.regId) (cellAt buffer b reg.regId)
    have e2 := hanti (cellAt buffer b reg.regId) (cellAt buffer a reg.regId)
    have e3 := hanti (cellAt buffer b reg.regId) (cellAt buffer c reg.regId)
    have e4 := hanti (cellAt buffer c reg.regId) (cellAt buffer b reg.regId)
    have e5 := hanti (cellAt buffer a reg.regId) (cellAt buffer c reg.regId)
    have e6 := hanti (cellAt buffer c reg.regId) (cellAt buffer a reg.regId)
    have ht := htr (cellAt buffer c reg.regId) (cellAt buffer b reg.regId)
      (cellAt buffer a reg.regId)
    omega

theorem rowCmp_anti (buffer : List AqlItemBlock) (regs : List SortRegister)
    (hanti : CmpAntisym regs) (a b : Coord) :
    rowCmp buffer regs a b < 0 ↔ 0 < rowCmp buffer regs b a := by
  induction regs with
  | nil => simp [rowCmp]
  | cons reg rest ih =>
    have h1 := dirCmp_anti reg buffer (hanti reg (by simp)) a b
    have h2 := dirCmp_anti reg buffer (hanti reg (by simp)) b a
    have ihr := ih (fun r hr => hanti r (List.mem_cons_of_mem _ hr))
    simp only [rowCmp]
    by_cases h0 : dirCmp reg buffer a b = 0
    · have h0b : dirCmp reg buffer b a = 0 := by omega
      rw [if_pos h0, if_pos h0b]
      exact ihr
    · have h0b : ¬ dirCmp reg buffer b a = 0 := by omega
      rw [if_neg h0, if_neg h0b]
      omega

theorem rowCmp_trans (buffer : List AqlItemBlock) (regs : List SortRegister)
    (hanti : CmpAntisym regs) (htr : CmpTransLE regs) (a b c : Coord) :
    rowCmp buffer regs a b ≤ 0 → rowCmp buffer regs b c ≤ 0 → rowCmp buffer regs a c ≤ 0 := by
  induction regs with
  | nil => simp [rowCmp]
  | cons reg rest ih =>
    have hm : reg ∈ reg :: rest := by simp
    have aab := dirCmp_anti reg buffer (hanti reg hm) a b
    have aba := dirCmp_anti reg buffer (hanti reg hm) b a
    have abc := dirCmp_anti reg buffer (hanti reg hm) b c
    have acb := dirCmp_anti reg buffer (hanti reg hm) c b
    have aac := dirCmp_anti reg buffer (hanti reg hm) a c
    have aca := dirCmp_anti reg buffer (hanti reg hm) c a
    have t1 := dirCmp_trans reg buffer (hanti reg hm) (htr reg hm) a b c
    have t2 := dirCmp_trans reg buffer (hanti reg hm) (htr reg hm) c b a
    have t3 := dirCmp_trans reg buffer (hanti reg hm) (htr reg hm) b c a
    have t4 := dirCmp_trans reg buffer (hanti reg hm) (htr reg hm) c a b
    have ihr := ih (fun r hr => hanti r (List.mem_cons_of_mem _ hr))
      (fun r hr => htr r (List.mem_cons_of_mem _ hr))
    simp only [rowCmp]
    by_cases h1 : dirCmp reg buffer a b = 0 <;> by_cases h2 : dirCmp reg buffer b c = 0
    · have h3 : dirCmp reg buffer a c = 0 := by omega
      rw [if_pos h1, if_pos h2, if_pos h3]
      exact ihr
    · rw [if_pos h1, if_neg h2]
      intro g1 g2
      have h3 : ¬ dirCmp reg buffer a c = 0 := by omega
      rw [if_neg h3]
      omega
    · rw [if_neg h1, if_pos h2]
      intro g1 g2
      have h3 : ¬ dirCmp reg buffer a c = 0 := by omega
      rw [if_neg h3]
      omega
    · rw [if_neg h1, if_neg h2]
      intro g1 g2
      have h3 : ¬ dirCmp reg buffer a c = 0 := by omega
      rw [if_neg h3]
      omega

theorem sortLE_iff (buffer : List AqlItemBlock) (regs : List SortRegister)
    (hanti : CmpAntisym regs) (a b : Coord) :
    sortLE buffer regs a b = true ↔ rowCmp buffer regs a b ≤ 0 := by
  have h := rowCmp_anti buffer regs hanti b a
  simp only [sortLE, ourLessThan_eq_rowCmp, Bool.not_eq_true']
  constructor
  · intro hd
    have : ¬ rowCmp buffer regs b a < 0 := by
      intro hlt
      simp [hlt] at hd
    omega
  · intro hle
    have : ¬ rowCmp buffer regs b a < 0 := by omega
    simp [this]

theorem sortLE_trans (buffer : List AqlItemBlock) (regs : List SortRegister)
    (hanti : CmpAntisym regs) (htr : CmpTransLE regs) :
    ∀ a b c : Coord, sortLE buffer regs a b → sortLE buffer regs b c → sortLE buffer regs a c := by
  intro a b c h1 h2
  rw [sortLE_iff buffer regs hanti] at h1 h2 ⊢
  exact rowCmp_trans buffer regs hanti htr a b c h1 h2

theorem sortLE_total (buffer : List AqlItemBlock) (regs : List SortRegister)
    (hanti : CmpAntisym regs) :
    ∀ a b : Coord, sortLE buffer regs a b || sortLE buffer regs b a := by
  intro a b
  have h1 := sortLE_iff buffer regs hanti a b
  have h2 := sortLE_iff buffer regs hanti b a
  have h3 := rowCmp_anti buffer regs hanti a b
  rcases le_or_lt (rowCmp buffer regs a b) 0 with h | h
  · simp [h1.mpr h]
  · have : rowCmp buffer regs b a ≤ 0 := by omega
    simp [h2.mpr this]

theorem ourLessThan_first_diff (buffer : List AqlItemBlock) (pre : List SortRegister) :
    ∀ (reg : SortRegister) (post : List SortRegister) (a b : Coord),
      (∀ r ∈ pre, r.cmp (cellAt buffer a r.regId) (cellAt buffer b r.regId) = 0) →
      ((reg.cmp (cellAt buffer a reg.regId) (cellAt buffer b reg.regId) < 0 →
          ourLessThan buffer (pre ++ reg :: post) a b = reg.ascending) ∧
        (0 < reg.cmp (cellAt buffer a reg.regId) (cellAt buffer b reg.regId) →
          ourLessThan buffer (pre ++ reg :: post) a b = !reg.ascending)) := by
  induction pre with
  | nil =>
    intro reg post a b _
    constructor
    · intro hlt
      simp [ourLessThan, hlt]
    · intro hgt
      simp [ourLessThan, hgt, not_lt_of_gt hgt]
  | cons r0 rest ih =>
    intro reg post a b hpre
    have h0 : r0.cmp (cellAt buffer a r0.regId) (cellAt buffer b r0.regId) = 0 :=
      hpre r0 (by simp)
    have htail := ih reg post a b (fun r hr => hpre r (by simp [hr]))
    simpa [ourLessThan, h0] using htail

theorem ourLessThan_all_ties (buffer : List AqlItemBlock) (regs : List SortRegister) :
    ∀ a b : Coord,
      (∀ r ∈ regs, r.cmp (cellAt buffer a r.regId) (cellAt buffer b r.regId) = 0) →
      ourLessThan buffer regs a b = false := by
  induction regs with
  | nil => intro a b _; simp [ourLessThan]
  | cons reg rest ih =>
    intro a b hall
    have h0 : reg.cmp (cellAt buffer a reg.regId) (cellAt buffer b reg.regId) = 0 :=
      hall reg (by simp)
    simpa [ourLessThan, h0] using ih a b (fun r hr => hall r (by simp [hr]))

/-- C3: for every pair of coordinates, `OurLessThan` iterates the sort
registers in list order; at the first register whose comparator reports a
strict difference it returns according to that register's direction flag
(ascending: negative comparison makes the left row precede; descending:
positive comparison does); on equal results it continues; if every register
compares equal it returns `false`, and in particular with reflexive register
comparators `OurLessThan a a` is `false` for every coordinate `a`. -/
theorem ourLessThan_spec (buffer : List AqlItemBlock) (regs : List SortRegister) :
    (∀ pre reg post (a b : Coord), regs = pre ++ reg :: post →
      (∀ r ∈ pre, r.cmp (cellAt buffer a r.regId) (cellAt buffer b r.regId) = 0) →
      ((reg.cmp (cellAt buffer a reg.regId) (cellAt buffer b reg.regId) < 0 →
          ourLessThan buffer regs a b = reg.ascending) ∧
        (0 < reg.cmp (cellAt buffer a reg.regId) (cellAt buffer b reg.regId) →
          ourLessThan buffer regs a b = !reg.ascending))) ∧
    (∀ a b : Coord,
      (∀ r ∈ regs, r.cmp (cellAt buffer a r.regId) (cellAt buffer b r.regId) = 0) →
      ourLessThan buffer regs a b = false) ∧
    ((∀ r ∈ regs, ∀ v, r.cmp v v = 0) →
      ∀ a : Coord, ourLessThan buffer regs a a = false) := by
  refine ⟨?_, ourLessThan_all_ties buffer regs, ?_⟩
  · intro pre reg post a b hregs hpre
    subst hregs
    exact ourLessThan_first_diff buffer pre reg post a b hpre
  · intro hrefl a
    exact ourLessThan_all_ties buffer regs a a (fun r hr => hrefl r hr _)

/-! ## Shape lemmas for the rebuild -/

theorem requestBlock_size (n r : Nat) : (requestBlock n r).size = n := by
  simp [requestBlock, AqlItemBlock.size]

theorem setValue_size (b : AqlItemBlock) (i j : Nat) (v : AqlValue) :
    (b.setValue i j v).size = b.size := by
  simp [AqlItemBlock.setValue, AqlItemBlock.size, setCell]

theorem setValue_nrRegs (b : AqlItemBlock) (i j : Nat) (v : AqlValue) :
    (b.setValue i j v).nrRegs = b.nrRegs := rfl

theorem processCell_cur_shape (faults : FaultOracle) (st : RebuildState) (src : Coord)
    (i j : Nat) (p : RebuildState × List RebuildEvent)
    (h : processCell faults st src i j = .ok p) :
    p.1.cur.size = st.cur.size ∧ p.1.cur.nrRegs = st.cur.nrRegs := by
  unfold processCell at h
  revert h
  repeat' split
  all_goals intro h
  all_goals first
    | exact Except.noConfusion h
    | (simp only [Except.ok.injEq] at h
       subst h
       simp [setValue_size, setValue_nrRegs])

theorem processRegs_cur_shape (faults : FaultOracle) (src : Coord) (i : Nat) :
    ∀ (js : List Nat) (st st1 : RebuildState),
      processRegs faults st src i js = .ok st1 →
      st1.cur.size = st.cur.size ∧ st1.cur.nrRegs = st.cur.nrRegs := by
  intro js
  induction js with
  | nil =>
    intro st st1 h
    cases h
    exact ⟨rfl, rfl⟩
  | cons j js ih =>
    intro st st1 h
    unfold processRegs at h
    split at h
    · exact absurd h (by simp)
    · rename_i st2 evs heq
      have h1 := processCell_cur_shape faults st src i j (st2, evs) heq
      have h2 := ih st2 st1 h
      exact ⟨h2.1.trans h1.1, h2.2.trans h1.2⟩

theorem processRows_cur_shape (faults : FaultOracle) (nr : Nat) :
    ∀ (cs : List Coord) (st st1 : RebuildState) (i : Nat),
      processRows faults nr st i cs = .ok st1 →
      st1.cur.size = st.cur.size ∧ st1.cur.nrRegs = st.cur.nrRegs := by
  intro cs
  induction cs with
  | nil =>
    intro st st1 i h
    cases h
    exact ⟨rfl, rfl⟩
  | cons c cs ih =>
    intro st st1 i h
    unfold processRows at h
    split at h
    · exact absurd h (by simp)
    · rename_i st2 heq
      have h1 := processRegs_cur_shape faults c i (List.range nr) st st2 heq
      have h2 := ih st2 st1 (i + 1) h
      omega

theorem chunkSizesAux_sum (bs : Nat) (hbs : 0 < bs) :
    ∀ fuel n, n ≤ fuel → (chunkSizesAux bs fuel n).sum = n := by
  intro fuel
  induction fuel with
  | zero =>
    intro n hn
    interval_cases n
    simp [chunkSizesAux]
  | succ fuel ih =>
    intro n hn
    match n with
    | 0 => simp [chunkSizesAux]
    | n + 1 =>
      have h1 : 0 < min (n + 1) bs := by omega
      have h2 : n + 1 - min (n + 1) bs ≤ fuel := by omega
      simp only [chunkSizesAux, List.sum_cons, ih _ h2]
      omega

theorem chunkSizesAux_congr (bs : Nat) (hbs : 0 < bs) :
    ∀ fuel fuel2 n, n ≤ fuel → n ≤ fuel2 →
      chunkSizesAux bs fuel n = chunkSizesAux bs fuel2 n := by
  intro fuel
  induction fuel with
  | zero =>
    intro fuel2 n hn _
    interval_cases n
    cases fuel2 <;> simp [chunkSizesAux]
  | succ fuel ih =>
    intro fuel2 n hn hn2
    match n, fuel2 with
    | 0, fuel2 => cases fuel2 <;> simp [chunkSizesAux]
    | n + 1, fuel2 + 1 =>
      have h2 : n + 1 - min (n + 1) bs ≤ fuel := by omega
      have h3 : n + 1 - min (n + 1) bs ≤ fuel2 := by omega
      simp only [chunkSizesAux, ih fuel2 _ h2 h3]

theorem rebuildLoop_sizes (faults : FaultOracle) (bs nrRegs : Nat) (hbs : 0 < bs) :
    ∀ (fuel : Nat) (coords : List Coord) (acc acc' : RebuildAcc),
      coords.length ≤ fuel →
      rebuildLoop faults bs nrRegs fuel acc coords = .ok acc' →
      acc'.done.map AqlItemBlock.size
          = acc.done.map AqlItemBlock.size ++ chunkSizesAux bs fuel coords.length
      ∧ ∀ blk ∈ acc'.done, blk ∈ acc.done ∨ blk.nrRegs = nrRegs := by
  intro fuel
  induction fuel with
  | zero =>
    intro coords acc acc' hlen h
    match coords, h with
    | [], h =>
      cases h
      exact ⟨by simp [chunkSizesAux], fun blk hb => Or.inl hb⟩
  | succ fuel ih =>
    intro coords acc acc' hlen h
    match coords, h with
    | [], h =>
      cases h
      exact ⟨by simp [chunkSizesAux], fun blk hb => Or.inl hb⟩
    | c :: cs, h =>
      unfold rebuildLoop at h
      split at h
      · exact absurd h (by simp)
      · split at h
        · exact absurd h (by simp)
        · rename_i st heq
          have hshape := processRows_cur_shape faults nrRegs
            ((c :: cs).take (min (c :: cs).length bs))
            ⟨acc.buffer, requestBlock (min (c :: cs).length bs) nrRegs, [], acc.fresh⟩ st 0 heq
          have hdrop : ((c :: cs).drop (min (c :: cs).length bs)).length ≤ fuel := by
            simp only [List.length_drop]
            have : 0 < min (c :: cs).length bs := by simp; omega
            have := List.length_cons c cs
            omega
          have hrec := ih ((c :: cs).drop (min (c :: cs).length bs))
            ⟨st.buffer, acc.done ++ [st.cur], st.fresh⟩ acc' hdrop h
          constructor
          · have hsz : st.cur.size = min (cs.length + 1) bs := by
              rw [hshape.1]
              simp [requestBlock_size]
            rw [hrec.1]
            simp only [List.map_append, List.map_cons, List.map_nil, hsz, List.length_drop,
              List.length_cons, List.append_assoc, List.singleton_append]
            congr 1
          · intro blk hblk
            rcases hrec.2 blk hblk with hin | hreg
            · rcases List.mem_append.mp hin with hin2 | hin2
              · exact Or.inl hin2
              · right
                have : blk = st.cur := by simpa using hin2
                rw [this, hshape.2]
                rfl
            · exact Or.inr hreg

theorem map_getD_range {α β : Type} (f : α → β) (d : α) :
    ∀ l : List α, (List.range l.length).map (fun i => f (l.getD i d)) = l.map f := by
  intro l
  induction l with
  | nil => simp
  | cons x xs ih =>
    rw [List.length_cons, List.range_succ_eq_map]
    simp only [List.map_cons, List.map_map]
    congr 1

theorem buildCoords_length (buffer : List AqlItemBlock) :
    (buildCoords buffer).length = (buffer.map (fun b => b.size % U32)).sum := by
  rw [buildCoords, List.length_flatMap]
  have : (List.range buffer.length).map
      (List.length ∘ fun idx =>
        (List.range ((buffer.getD idx (requestBlock 0 0)).size % U32)).map
          (fun i => (idx % U32, i)))
      = (List.range buffer.length).map
        (fun idx => (buffer.getD idx (requestBlock 0 0)).size % U32) := by
    apply List.map_congr_left
    intro idx _
    simp
  rw [this, map_getD_range (fun b => b.size % U32) (requestBlock 0 0) buffer]

/-- C7: after a successful `doSorting` pass the total output row count equals
the total buffered row count; the output batch sizes follow the chunking
`min(remaining, DefaultBatchSize)` exactly, and every output batch carries the
register count of the source batches. -/
theorem doSorting_row_counts (faults : FaultOracle) (stable : Bool)
    (regs : List SortRegister) (bs : Nat) (buffer out : List AqlItemBlock) (hbs : 0 < bs)
    (hsz : ∀ blk ∈ buffer, blk.size < U32)
    (hok : doSorting faults stable regs bs buffer = .ok out) :
    (out.map AqlItemBlock.size).sum = (buffer.map AqlItemBlock.size).sum
    ∧ out.map AqlItemBlock.size = chunkSizes bs (buffer.map AqlItemBlock.size).sum
    ∧ ∀ blk ∈ out, blk.nrRegs = (buffer.headD (requestBlock 0 0)).nrRegs := by
  unfold doSorting at hok
  split at hok
  · exact Except.noConfusion hok
  · split at hok
    · exact Except.noConfusion hok
    · rename_i acc heq
      simp only [Except.ok.injEq] at hok
      subst hok
      have hr := rebuildLoop_sizes faults bs (buffer.headD (requestBlock 0 0)).nrRegs hbs
        (doSortingOrder buffer regs).length (doSortingOrder buffer regs)
        ⟨buffer, [], maxGen buffer + 1⟩ acc (le_refl _) heq
      have hscount : (doSortingOrder buffer regs).length
          = (buffer.map AqlItemBlock.size).sum := by
        rw [doSortingOrder, List.length_insertionSort, buildCoords_length]
        congr 1
        apply List.map_congr_left
        intro b hb
        exact Nat.mod_eq_of_lt (hsz b hb)
      refine ⟨?_, ?_, ?_⟩
      · rw [hr.1]
        simp only [List.map_nil, List.nil_append]
        rw [chunkSizesAux_sum bs hbs _ _ (le_refl _), hscount]
      · rw [hr.1]
        simp only [List.map_nil, List.nil_append]
        rw [chunkSizes, ← hscount]
      · intro blk hblk
        rcases hr.2 blk hblk with hin | hreg
        · simp at hin
        · exact hreg

/-- C1: after a successful `doSorting` pass, in the coordinate order the
output batches are rebuilt in (`doSortingOrder`), no adjacent pair is reported
out of order by the row comparator: `OurLessThan` never says that row `i+1`
precedes row `i`; moreover the concatenated output rows are exactly one per
sorted coordinate.  The register comparators are assumed sign-antisymmetric
and transitive, as `std::sort` requires a strict weak order. -/
theorem doSorting_order_correct (faults : FaultOracle) (stable : Bool)
    (regs : List SortRegister) (bs : Nat) (buffer out : List AqlItemBlock)
    (hanti : CmpAntisym regs) (htrans : CmpTransLE regs) (hbs : 0 < bs)
    (hok : doSorting faults stable regs bs buffer = .ok out) :
    List.Chain' (fun x y => ourLessThan buffer regs y x = false) (doSortingOrder buffer regs)
    ∧ (out.map AqlItemBlock.size).sum = (doSortingOrder buffer regs).length := by
  constructor
  · haveI htot : IsTotal Coord (sortRel buffer regs) := ⟨fun a b => by
      have h := sortLE_total buffer regs hanti a b
      rcases Bool.or_eq_true_iff.mp h with h1 | h1
      · exact Or.inl h1
      · exact Or.inr h1⟩
    haveI htrI : IsTrans Coord (sortRel buffer regs) :=
      ⟨fun a b c h1 h2 => sortLE_trans buffer regs hanti htrans a b c h1 h2⟩
    have hp : List.Pairwise (sortRel buffer regs) (doSortingOrder buffer regs) :=
      List.sorted_insertionSort (sortRel buffer regs) (buildCoords buffer)
    have hchain := List.Pairwise.chain' hp
    apply List.Chain'.imp ?_ hchain
    intro a b hab
    simpa [sortRel, sortLE, Bool.not_eq_true'] using hab
  · unfold doSorting at hok
    split at hok
    · exact Except.noConfusion hok
    · split at hok
      · exact Except.noConfusion hok
      · rename_i acc heq
        simp only [Except.ok.injEq] at hok
        subst hok
        have hr := rebuildLoop_sizes faults bs (buffer.headD (requestBlock 0 0)).nrRegs hbs
          (doSortingOrder buffer regs).length (doSortingOrder buffer regs)
          ⟨buffer, [], maxGen buffer + 1⟩ acc (le_refl _) heq
        rw [hr.1]
        simp only [List.map_nil, List.nil_append]
        exact chunkSizesAux_sum bs hbs _ _ (le_refl _)

/-- C5: when the stability flag is set the sort is `std::stable_sort`,
modelled exactly by `List.mergeSort`: rows the row comparator treats as equal
keep their buffered relative order in the sorted coordinate order.  When the
flag is clear the sort is `std::sort`, whose contract only promises a sorted
permutation; a contract-conforming output exists that reorders
comparator-equal rows, so no stability guarantee holds. -/
theorem doSorting_stability (buffer : List AqlItemBlock) (regs : List SortRegister) :
    (∀ a b : Coord, [a, b].Sublist (buildCoords buffer) →
      ourLessThan buffer regs a b = false → ourLessThan buffer regs b a = false →
      [a, b].Sublist (doSortingOrder buffer regs))
    ∧ (∃ output : List Coord,
        isValidSortResult (ourLessThan ex5buffer []) (buildCoords ex5buffer) output
        ∧ [((0 : Nat), (0 : Nat)), (0, 1)].Sublist (buildCoords ex5buffer)
        ∧ ourLessThan ex5buffer [] (0, 0) (0, 1) = false
        ∧ ourLessThan ex5buffer [] (0, 1) (0, 0) = false
        ∧ ¬ [((0 : Nat), (0 : Nat)), (0, 1)].Sublist output) := by
  constructor
  · intro a b hsub hab hba
    apply List.sublist_insertionSort ?_ hsub
    apply List.pairwise_pair.mpr
    simp [sortRel, sortLE, hba]
  · have hbc : buildCoords ex5buffer = [(0, 0), (0, 1)] := by decide
    refine ⟨[(0, 1), (0, 0)], ⟨?_, ?_⟩, ?_, rfl, rfl, ?_⟩
    · rw [hbc]
      exact List.Perm.swap _ _ _
    · exact List.chain'_pair.mpr rfl
    · rw [hbc]
    · intro h
      have h2 := h.eq_of_length (by simp)
      simp at h2


/-- Helper: an in-bounds `getD` is a member of the list. -/
theorem getD_mem_of_lt {α : Type} (l : List α) (d : α) :
    ∀ i, i < l.length → l.getD i d ∈ l := by
  induction l with
  | nil =>
    intro i h
    simp at h
  | cons x xs ih =>
    intro i h
    match i with
    | 0 => simp
    | i + 1 =>
      have := ih i (by simpa using h)
      simpa using Or.inr this

theorem buildCoords_eq_ideal (buffer : List AqlItemBlock)
    (hlen : buffer.length < U32) (hsz : ∀ blk ∈ buffer, blk.size < U32) :
    buildCoords buffer = idealCoords buffer := by
  rw [buildCoords, idealCoords, List.flatMap_def, List.flatMap_def]
  congr 1
  apply List.map_congr_left
  intro idx hidx
  have h1 : idx < buffer.length := List.mem_range.mp hidx
  have h2 : idx % U32 = idx := Nat.mod_eq_of_lt (lt_trans h1 hlen)
  have h3 : (buffer.getD idx (requestBlock 0 0)).size % U32
      = (buffer.getD idx (requestBlock 0 0)).size :=
    Nat.mod_eq_of_lt (hsz _ (getD_mem_of_lt buffer (requestBlock 0 0) idx h1))
  rw [h2, h3]

/-- C10: coordinates are pairs of `uint32_t`; the block counter and the
`static_cast<uint32_t>` of each block's row count wrap at `2^32`.  Under the
precondition that the number of buffered blocks and every block's row count
are below `2^32` the installed coordinate array is the mathematically exact
one; beyond that it silently diverges: a single block of `2^32` rows installs
no coordinate at all. -/
theorem buildCoords_uint32 :
    (∀ buffer : List AqlItemBlock, buffer.length < U32 →
        (∀ blk ∈ buffer, blk.size < U32) → buildCoords buffer = idealCoords buffer)
    ∧ buildCoords wrapBuffer = []
    ∧ idealCoords wrapBuffer ≠ [] := by
  refine ⟨fun buffer h1 h2 => buildCoords_eq_ideal buffer h1 h2, ?_, ?_⟩
  · rw [buildCoords, wrapBuffer]
    rw [show List.length [(⟨0, List.replicate U32 [], []⟩ : AqlItemBlock)] = 1 from rfl]
    rw [show List.range 1 = [0] from rfl, List.flatMap_cons, List.flatMap_nil, List.append_nil]
    have hgen : ∀ n : Nat,
        ((⟨0, List.replicate n [], []⟩ : AqlItemBlock)).size = n := by
      intro n
      simp [AqlItemBlock.size]
    have h0 : (List.getD [(⟨0, List.replicate U32 [], []⟩ : AqlItemBlock)] 0
        (requestBlock 0 0)).size % U32 = 0 := by
      rw [List.getD_cons_zero, hgen U32, Nat.mod_self]
    rw [h0, List.range_zero, List.map_nil]
  · intro h
    have hl := congrArg List.length h
    rw [idealCoords, wrapBuffer] at hl
    rw [show List.length [(⟨0, List.replicate U32 [], []⟩ : AqlItemBlock)] = 1 from rfl] at hl
    rw [show List.range 1 = [0] from rfl, List.flatMap_cons, List.flatMap_nil,
      List.append_nil] at hl
    rw [List.length_map, List.length_range, List.getD_cons_zero] at hl
    have h0 : ∀ n : Nat,
        ((⟨0, List.replicate n [], []⟩ : AqlItemBlock)).size = n := by
      intro n
      simp [AqlItemBlock.size]
    rw [h0 U32, List.length_nil] at hl
    exact absurd hl (by norm_num [U32])


/-- C9: in one `getOrSkipSomeOld` call, the buffering prelude clears the
fetch-all flag before any sorting, invokes `doSorting` only when the buffered
set is non-empty (an empty set goes straight to the done state), and a second
call never invokes the sort again — even when the first pass faulted. -/
theorem getOrSkipPrelude_sort_once (faults : FaultOracle) (stable : Bool)
    (regs : List SortRegister) (bs : Nat) (s : SortBlockState)
    (incoming : List AqlItemBlock) :
    (getOrSkipPrelude faults stable regs bs s incoming).state.mustFetchAll = false
    ∧ ((getOrSkipPrelude faults stable regs bs s incoming).sortInvoked = true →
        s.buffer ++ incoming ≠ [] ∧ s.mustFetchAll = true)
    ∧ (s.mustFetchAll = true → s.buffer ++ incoming = [] →
        (getOrSkipPrelude faults stable regs bs s incoming).sortInvoked = false
        ∧ (getOrSkipPrelude faults stable regs bs s incoming).goesExhausted = true)
    ∧ (∀ (faults2 : FaultOracle) (incoming2 : List AqlItemBlock),
        (getOrSkipPrelude faults2 stable regs bs
          (getOrSkipPrelude faults stable regs bs s incoming).state incoming2).sortInvoked
          = false) := by
  unfold getOrSkipPrelude
  by_cases hm : s.mustFetchAll
  · rw [if_pos hm]
    by_cases he : (s.buffer ++ incoming).isEmpty
    · rw [if_pos he]
      exact ⟨rfl, by simp, fun _ _ => ⟨rfl, rfl⟩, fun faults2 incoming2 => rfl⟩
    · rw [if_neg (by simpa using he)]
      split
      · refine ⟨rfl, fun _ => ⟨by simpa using he, hm⟩, fun _ habs => ?_, fun f2 i2 => rfl⟩
        rw [habs] at he
        simp at he
      · refine ⟨rfl, fun _ => ⟨by simpa using he, hm⟩, fun _ habs => ?_, fun f2 i2 => rfl⟩
        rw [habs] at he
        simp at he
  · rw [if_neg hm]
    refine ⟨by simpa using hm, by simp [hm], fun habs => absurd habs hm, fun f2 i2 => ?_⟩
    rw [if_neg hm]

/-- C2 counterexample: arm only the `doSortingCache` checkpoint and sort a
one-row buffer whose first cell is a uniquely-referenced complex value and
whose second cell is simple.  The complex value is stolen first; the fault
then fires at the simple cell's checkpoint, the pass aborts, every output
batch (including the one holding the stolen storage) is destroyed and the
error is propagated — but the surviving buffered set has lost the complex
value: it is NOT observably unchanged. -/
theorem doSorting_rollback_changes_buffer :
    doSorting c2faults false wregs 10 c2buffer
      = .error [⟨2, [[none, some (.simple 7)]], []⟩]
    ∧ ([⟨2, [[none, some (.simple 7)]], []⟩] : List AqlItemBlock) ≠ c2buffer := by
  exact ⟨by decide, by decide⟩

/-- C2 amended: any rebuild fault propagates an error carrying the surviving
buffered set, with no output batch remaining; when the fault fires before the
first cell transfer — at the pass-start checkpoint, or at the first chunk's
allocation checkpoint — the buffered set is observably unchanged. -/
theorem doSorting_early_fault_rollback (faults : FaultOracle) (stable : Bool)
    (regs : List SortRegister) (bs : Nat) (buffer : List AqlItemBlock) :
    (faults .doSortingStart = true → doSorting faults stable regs bs buffer = .error buffer)
    ∧ (buildCoords buffer ≠ [] →
        doSorting onlyInner stable regs bs buffer = .error buffer) := by
  constructor
  · intro h
    unfold doSorting
    rw [if_pos h]
  · intro hne
    have hlen : doSortingOrder buffer regs ≠ [] := by
      intro habs
      apply hne
      have hl := congrArg List.length habs
      rw [doSortingOrder, List.length_insertionSort] at hl
      exact List.eq_nil_of_length_eq_zero hl
    obtain ⟨c, cs, hcs⟩ := List.exists_cons_of_ne_nil hlen
    unfold doSorting
    rw [if_neg (by decide : ¬ onlyInner .doSortingStart = true)]
    rw [hcs]
    rfl

/-! ## Cell read/write lemmas -/

theorem getD_set_self {α : Type} (l : List α) (i : Nat) (x d : α) (h : i < l.length) :
    (l.set i x).getD i d = x := by
  rw [List.getD_eq_getElem?_getD, List.getElem?_set_self h]
  rfl

theorem getD_set_ne {α : Type} (l : List α) (i j : Nat) (x d : α) (h : i ≠ j) :
    (l.set i x).getD j d = l.getD j d := by
  rw [List.getD_eq_getElem?_getD, List.getD_eq_getElem?_getD, List.getElem?_set_ne h]

theorem getD_of_length_le {α : Type} (l : List α) (i : Nat) (d : α) (h : l.length ≤ i) :
    l.getD i d = d := by
  rw [List.getD_eq_getElem?_getD, List.getElem?_eq_none h]
  rfl

theorem getValueReference_setValue_self (b : AqlItemBlock) (i j : Nat) (v : AqlValue)
    (hi : i < b.data.length) (hj : j < (b.data.getD i []).length) :
    (b.setValue i j v).getValueReference i j = some v := by
  show ((setCell b.data i j (some v)).getD i []).getD j none = some v
  rw [setCell, getD_set_self _ _ _ _ hi, getD_set_self _ _ _ _ hj]

theorem getValueReference_setValue_ne (b : AqlItemBlock) (i j i2 j2 : Nat) (v : AqlValue)
    (h : ¬(i2 = i ∧ j2 = j)) :
    (b.setValue i j v).getValueReference i2 j2 = b.getValueReference i2 j2 := by
  show ((setCell b.data i j (some v)).getD i2 []).getD j2 none = _
  rw [setCell]
  by_cases hi : i2 = i
  · subst hi
    have hj : j ≠ j2 := by
      intro he
      exact h ⟨rfl, he.symm⟩
    by_cases hlt : i2 < b.data.length
    · rw [getD_set_self _ _ _ _ hlt, getD_set_ne _ _ _ _ _ hj]
      rfl
    · rw [List.set_eq_of_length_le (by omega)]
      rfl
  · rw [getD_set_ne _ _ _ _ _ (fun he => hi he.symm)]
    rfl

theorem cellAt_some_bounds (buffer : List AqlItemBlock) (c : Coord) (reg : Nat)
    (a : AqlValue) (h : cellAt buffer c reg = some a) :
    c.1 < buffer.length
    ∧ c.2 < (buffer.getD c.1 (requestBlock 0 0)).data.length
    ∧ reg < ((buffer.getD c.1 (requestBlock 0 0)).data.getD c.2 []).length := by
  by_cases h1 : c.1 < buffer.length
  · by_cases h2 : c.2 < (buffer.getD c.1 (requestBlock 0 0)).data.length
    · by_cases h3 : reg < ((buffer.getD c.1 (requestBlock 0 0)).data.getD c.2 []).length
      · exact ⟨h1, h2, h3⟩
      · rw [cellAt, AqlItemBlock.getValueReference,
          getD_of_length_le ((buffer.getD c.1 (requestBlock 0 0)).data.getD c.2 []) reg none
            (by omega)] at h
        exact Option.noConfusion h
    · rw [cellAt, AqlItemBlock.getValueReference,
        getD_of_length_le (buffer.getD c.1 (requestBlock 0 0)).data c.2 [] (by omega)] at h
      simp at h
  · rw [cellAt, getD_of_length_le _ _ _ (by omega)] at h
    simp [requestBlock, AqlItemBlock.getValueReference] at h

theorem eraseValue_data (b : AqlItemBlock) (r j : Nat) :
    (b.eraseValue r j).data = setCell b.data r j none := by
  unfold AqlItemBlock.eraseValue
  split <;> rfl

theorem getValueReference_data (b : AqlItemBlock) (r j : Nat) :
    b.getValueReference r j = (b.data.getD r []).getD j none := rfl

theorem cellAt_eraseBuf_self (buffer : List AqlItemBlock) (b r j : Nat) :
    cellAt (eraseBuf buffer b r j) (b, r) j = none := by
  rw [eraseBuf, cellAt]
  by_cases h1 : b < buffer.length
  · rw [getD_set_self _ _ _ _ h1, getValueReference_data, eraseValue_data, setCell]
    by_cases h2 : r < (buffer.getD b (requestBlock 0 0)).data.length
    · rw [getD_set_self _ _ _ _ h2]
      by_cases h3 : j < ((buffer.getD b (requestBlock 0 0)).data.getD r []).length
      · rw [getD_set_self _ _ _ _ h3]
      · rw [List.set_eq_of_length_le (by omega),
          getD_of_length_le ((buffer.getD b (requestBlock 0 0)).data.getD r []) j none
            (by omega)]
    · rw [List.set_eq_of_length_le (by omega),
        getD_of_length_le (buffer.getD b (requestBlock 0 0)).data r [] (by omega)]
      rfl
  · rw [List.set_eq_of_length_le (by omega),
      getD_of_length_le buffer b (requestBlock 0 0) (by omega)]
    rfl

theorem cellAt_eraseBuf_ne (buffer : List AqlItemBlock) (b r j : Nat) (c2 : Coord) (j2 : Nat)
    (h : ¬(c2 = (b, r) ∧ j2 = j)) :
    cellAt (eraseBuf buffer b r j) c2 j2 = cellAt buffer c2 j2 := by
  rw [eraseBuf, cellAt, cellAt]
  by_cases hb : c2.1 = b
  · rw [hb]
    by_cases h1 : b < buffer.length
    · rw [getD_set_self _ _ _ _ h1, getValueReference_data, getValueReference_data,
        eraseValue_data, setCell]
      by_cases hr : c2.2 = r
      · rw [hr]
        have hj : j ≠ j2 := by
          intro he
          apply h
          refine ⟨?_, he.symm⟩
          calc c2 = (c2.1, c2.2) := rfl
            _ = (b, r) := by rw [hb, hr]
        by_cases h2 : r < (buffer.getD b (requestBlock 0 0)).data.length
        · rw [getD_set_self _ _ _ _ h2, getD_set_ne _ _ _ _ _ hj]
        · rw [List.set_eq_of_length_le (by omega)]
      · rw [getD_set_ne _ _ _ _ _ (fun he => hr he.symm)]
    · rw [List.set_eq_of_length_le (by omega)]
  · rw [getD_set_ne _ _ _ _ _ (fun he => hb he.symm)]

/-! ## Reference-count table lemmas -/

theorem find?_filter_not_beq (counts : List (AqlValue × Nat)) (v : AqlValue) :
    (counts.filter (fun p => !(p.1 == v))).find? (fun p => p.1 == v) = none := by
  induction counts with
  | nil => rfl
  | cons p rest ih =>
    by_cases h : p.1 = v
    · simpa [List.filter_cons, h] using ih
    · simp [List.filter_cons, h, List.find?_cons, ih]

theorem lookupCount_removeCount (counts : List (AqlValue × Nat)) (v : AqlValue) :
    lookupCount (removeCount counts v) v = 0 := by
  rw [lookupCount, removeCount, find?_filter_not_beq]

theorem decCount_of_not_found (counts : List (AqlValue × Nat)) (v : AqlValue)
    (h : counts.find? (fun p => p.1 == v) = none) : decCount counts v = counts := by
  induction counts with
  | nil => rfl
  | cons p rest ih =>
    by_cases hp : p.1 = v
    · simp [List.find?_cons, hp] at h
    · have hb : (p.1 == v) = false := beq_eq_false_iff_ne.mpr hp
      rw [List.find?_cons, hb] at h
      simp only [Bool.false_eq_true, if_false] at h
      rw [decCount]
      simp only [hb, Bool.false_eq_true, if_false]
      rw [ih h]

theorem lookupCount_cons_ne (p : AqlValue × Nat) (rest : List (AqlValue × Nat))
    (w : AqlValue) (hw : (p.1 == w) = false) :
    lookupCount (p :: rest) w = lookupCount rest w := by
  rw [lookupCount, lookupCount, List.find?_cons, hw]

theorem lookupCount_cons_eq (p : AqlValue × Nat) (rest : List (AqlValue × Nat))
    (w : AqlValue) (hw : (p.1 == w) = true) :
    lookupCount (p :: rest) w = p.2 := by
  rw [lookupCount, List.find?_cons, hw]

theorem lookupCount_decCount_ne (counts : List (AqlValue × Nat)) (v w : AqlValue)
    (h : w ≠ v) : lookupCount (decCount counts v) w = lookupCount counts w := by
  induction counts with
  | nil => rfl
  | cons p rest ih =>
    by_cases hp : p.1 = v
    · have hw : (p.1 == w) = false := by
        apply beq_eq_false_iff_ne.mpr
        rw [hp]
        exact Ne.symm h
      by_cases hone : p.2 ≤ 1
      · rw [decCount, if_pos (beq_iff_eq.mpr hp), if_pos hone,
          lookupCount_cons_ne p rest w hw]
      · rw [decCount, if_pos (beq_iff_eq.mpr hp), if_neg hone,
          lookupCount_cons_ne (p.1, p.2 - 1) rest w hw, lookupCount_cons_ne p rest w hw]
    · rw [decCount, if_neg (by simp [hp])]
      by_cases hw : p.1 = w
      · rw [lookupCount_cons_eq p _ w (beq_iff_eq.mpr hw),
          lookupCount_cons_eq p rest w (beq_iff_eq.mpr hw)]
      · rw [lookupCount_cons_ne p _ w (beq_eq_false_iff_ne.mpr hw),
          lookupCount_cons_ne p rest w (beq_eq_false_iff_ne.mpr hw)]
        exact ih

theorem find?_removeCount (counts : List (AqlValue × Nat)) (v : AqlValue) :
    (removeCount counts v).find? (fun p => p.1 == v) = none := by
  rw [removeCount]
  exact find?_filter_not_beq _ _

theorem eraseValue_counts_of_complex (b : AqlItemBlock) (r j : Nat) (a : AqlValue)
    (ha : b.getValueReference r j = some a) (hc : a.requiresDestruction = true) :
    (b.eraseValue r j).counts = decCount b.counts a := by
  unfold AqlItemBlock.eraseValue
  rw [ha]
  simp [hc]

/-- C4 counterexample: the source batch's reference count for the shared
complex value is 2 — a second live reference to the same storage exists in
the batch — yet on the dedup-cache miss the code STEALS the storage: the
destination receives the original value, no clone is created (the fresh-clone
counter stays put), and the batch's bookkeeping entry is dropped wholesale. -/
theorem processCell_steals_shared_value :
    (c4buffer.getD 0 (requestBlock 0 0)).valueCount (.complex 5 0) = 2
    ∧ cacheFind c4state.cache (.complex 5 0) = none
    ∧ processCell noFaults c4state (0, 0) 0 0
      = .ok (⟨[⟨1, [[none], [some (.complex 5 0)]], []⟩],
              ⟨1, [[some (.complex 5 0)], [none]], [(.complex 5 0, 1)]⟩,
              [(.complex 5 0, .complex 5 0)], 1⟩,
             [.setDst 0 0 (.complex 5 0), .stealSrc 0 (.complex 5 0),
              .eraseSrc 0 0 0, .cacheIns (.complex 5 0) (.complex 5 0)]) := by
  exact ⟨by decide, by decide, by decide⟩

/-- C4 amended: for a cache-missing destruction-requiring source cell the
triage is decided by whether the source batch still holds responsibility for
the storage, not by whether this is the last reference: a nonzero count (even
when it is 2 or more) steals — the destination receives the original value
zero-copy, the batch's count entry is dropped, the value is cached mapped to
itself and the source cell erased; a zero count (already stolen for an earlier
output batch) clones — a fresh clone goes to the destination and the cache,
only this cell's reference is erased, and every other storage's count is
untouched. -/
theorem processCell_triage (st : RebuildState) (src : Coord) (i j : Nat) (a : AqlValue)
    (ha : cellAt st.buffer src j = some a) (hc : a.requiresDestruction = true)
    (hmiss : cacheFind st.cache a = none)
    (hi : i < st.cur.data.length) (hj : j < (st.cur.data.getD i []).length) :
    ∃ st1 evs, processCell noFaults st src i j = Except.ok (st1, evs)
      ∧ cellAt st1.buffer src j = none
      ∧ ((st.buffer.getD src.1 (requestBlock 0 0)).valueCount a ≠ 0 →
          st1.cur.getValueReference i j = some a
          ∧ st1.cache = st.cache ++ [(a, a)]
          ∧ st1.fresh = st.fresh
          ∧ (st1.buffer.getD src.1 (requestBlock 0 0)).valueCount a = 0
          ∧ evs = [.setDst i j a, .stealSrc src.1 a, .eraseSrc src.1 src.2 j, .cacheIns a a])
      ∧ ((st.buffer.getD src.1 (requestBlock 0 0)).valueCount a = 0 →
          st1.cur.getValueReference i j = some (a.clone st.fresh)
          ∧ st1.cache = st.cache ++ [(a, a.clone st.fresh)]
          ∧ st1.fresh = st.fresh + 1
          ∧ (∀ w, w ≠ a →
              (st1.buffer.getD src.1 (requestBlock 0 0)).valueCount w
                = (st.buffer.getD src.1 (requestBlock 0 0)).valueCount w)
          ∧ evs = [.cacheIns a (a.clone st.fresh), .setDst i j (a.clone st.fresh),
                   .eraseSrc src.1 src.2 j]) := by
  have hb := cellAt_some_bounds st.buffer src j a ha
  by_cases hv : (st.buffer.getD src.1 (requestBlock 0 0)).valueCount a = 0
  · refine ⟨{ st with
        buffer := eraseBuf st.buffer src.1 src.2 j,
        cur := st.cur.setValue i j (a.clone st.fresh),
        cache := st.cache ++ [(a, a.clone st.fresh)],
        fresh := st.fresh + 1 },
      [.cacheIns a (a.clone st.fresh), .setDst i j (a.clone st.fresh),
       .eraseSrc src.1 src.2 j],
      ?_, ?_, fun hne => absurd hv hne, fun _ => ⟨?_, rfl, rfl, ?_, rfl⟩⟩
    · unfold processCell
      rw [ha]
      simp only [hc, hmiss, hv, noFaults, if_true, if_false, Bool.false_eq_true,
        ite_false, ite_true]
    · exact cellAt_eraseBuf_self st.buffer src.1 src.2 j
    · exact getValueReference_setValue_self st.cur i j _ hi hj
    · intro w hw
      show ((eraseBuf st.buffer src.1 src.2 j).getD src.1 (requestBlock 0 0)).valueCount w = _
      rw [eraseBuf, getD_set_self _ _ _ _ hb.1]
      show lookupCount ((st.buffer.getD src.1 (requestBlock 0 0)).eraseValue src.2 j).counts w
        = _
      rw [eraseValue_counts_of_complex _ _ _ a ha hc]
      exact lookupCount_decCount_ne _ _ _ hw
  · refine ⟨{ st with
        buffer := eraseBuf
          (st.buffer.set src.1 ((st.buffer.getD src.1 (requestBlock 0 0)).steal a))
          src.1 src.2 j,
        cur := st.cur.setValue i j a,
        cache := st.cache ++ [(a, a)] },
      [.setDst i j a, .stealSrc src.1 a, .eraseSrc src.1 src.2 j, .cacheIns a a],
      ?_, ?_, fun _ => ⟨?_, rfl, rfl, ?_, rfl⟩, fun he => absurd he hv⟩
    · unfold processCell
      rw [ha]
      simp only [hc, hmiss, hv, noFaults, if_true, if_false, Bool.false_eq_true,
        ite_false, ite_true]
    · exact cellAt_eraseBuf_self _ src.1 src.2 j
    · exact getValueReference_setValue_self st.cur i j _ hi hj
    · show ((eraseBuf (st.buffer.set src.1
          ((st.buffer.getD src.1 (requestBlock 0 0)).steal a)) src.1 src.2 j).getD src.1
            (requestBlock 0 0)).valueCount a = 0
      rw [eraseBuf]
      rw [getD_set_self _ _ _ _ (by simpa using hb.1)]
      rw [getD_set_self _ _ _ _ hb.1]
      have hcell : ((st.buffer.getD src.1 (requestBlock 0 0)).steal a).getValueReference
          src.2 j = some a := ha
      show lookupCount (((st.buffer.getD src.1 (requestBlock 0 0)).steal a).eraseValue
        src.2 j).counts a = 0
      rw [eraseValue_counts_of_complex _ _ _ a hcell hc]
      show lookupCount (decCount
        (removeCount (st.buffer.getD src.1 (requestBlock 0 0)).counts a) a) a = 0
      rw [decCount_of_not_found _ _ (find?_removeCount _ _)]
      exact lookupCount_removeCount _ _

/-- C8 counterexample: in the dedup-cache-hit path the source reference is
erased BEFORE the destination assignment — the per-cell event trace starts
with the erase — contradicting the claim that the erase always comes after
the destination assignment succeeded. -/
theorem processCell_cache_hit_erases_first :
    processCell noFaults c8state (0, 0) 1 0
      = .ok (⟨[⟨1, [[none]], []⟩],
              ⟨1, [[none], [some (.complex 5 0)]], [(.complex 5 0, 1)]⟩,
              [(.complex 5 0, .complex 5 0)], 9⟩,
             [.eraseSrc 0 0 0, .setDst 1 0 (.complex 5 0)])
    ∧ eraseOnlyAfterSet [.eraseSrc 0 0 0, .setDst 1 0 (.complex 5 0)] = false := by
  exact ⟨by decide, by decide⟩

/-- C8 amended: for every cell whose processing is NOT a dedup-cache hit
(simple values, empty cells, and cache-missing complex values on both the
steal and the clone path), the destination assignment precedes any erase of
the source reference in the per-cell event trace; the cache-hit path alone
erases first, which the source comments justify by the output batch already
holding the value's storage. -/
theorem processCell_dest_before_erase (faults : FaultOracle) (st : RebuildState)
    (src : Coord) (i j : Nat) (st1 : RebuildState) (evs : List RebuildEvent)
    (hrun : processCell faults st src i j = .ok (st1, evs))
    (hnohit : ∀ a, cellAt st.buffer src j = some a → a.requiresDestruction = true →
      cacheFind st.cache a = none) :
    eraseOnlyAfterSet evs = true := by
  unfold processCell at hrun
  revert hrun
  repeat' split
  all_goals intro hrun
  all_goals first
    | exact Except.noConfusion hrun
    | (simp only [Except.ok.injEq, Prod.mk.injEq] at hrun
       rw [← hrun.2]
       rfl)
    | (exfalso
       simp_all)

/-! ## Reference accounting lemmas -/

theorem cellRefs_none (root : Nat) : cellRefs root none = 0 := rfl

theorem cellRefs_eq_root (root : Nat) (v : AqlValue) :
    cellRefs root (some v) = if valRoot v = some root then 1 else 0 := by
  cases v <;> simp [cellRefs, valRoot]

theorem valRoot_clone (v : AqlValue) (fresh : Nat) : valRoot (v.clone fresh) = valRoot v := by
  cases v <;> rfl

theorem blockRefs_requestBlock (root n nr : Nat) : blockRefs root (requestBlock n nr) = 0 := by
  simp [blockRefs, requestBlock, List.map_replicate, List.sum_replicate, cellRefs]

theorem sum_map_set {α : Type} (f : α → Nat) :
    ∀ (l : List α) (i : Nat) (x d : α), i < l.length →
      ((l.set i x).map f).sum + f (l.getD i d) = (l.map f).sum + f x := by
  intro l
  induction l with
  | nil =>
    intro i x d h
    simp at h
  | cons y ys ih =>
    intro i x d h
    match i with
    | 0 =>
      simp only [List.set_cons_zero, List.map_cons, List.sum_cons, List.getD_cons_zero]
      omega
    | i + 1 =>
      simp only [List.set_cons_succ, List.map_cons, List.sum_cons, List.getD_cons_succ]
      have := ih i x d (by simpa using h)
      omega

theorem buffersRefs_set (root : Nat) (buffer : List AqlItemBlock) (k : Nat)
    (blk : AqlItemBlock) (hk : k < buffer.length) :
    buffersRefs root (buffer.set k blk) + blockRefs root (buffer.getD k (requestBlock 0 0))
      = buffersRefs root buffer + blockRefs root blk :=
  sum_map_set (blockRefs root) buffer k blk (requestBlock 0 0) hk

theorem blockRefs_setValue (root : Nat) (b : AqlItemBlock) (i j : Nat) (v : AqlValue)
    (hi : i < b.data.length) (hj : j < (b.data.getD i []).length)
    (hold : b.getValueReference i j = none) :
    blockRefs root (b.setValue i j v) = blockRefs root b + cellRefs root (some v) := by
  have h1 := sum_map_set (fun row => (row.map (cellRefs root)).sum) b.data i
    ((b.data.getD i []).set j (some v)) [] hi
  have h2 := sum_map_set (cellRefs root) (b.data.getD i []) j (some v) none hj
  have hold2 : (b.data.getD i []).getD j none = none := hold
  rw [hold2, cellRefs_none] at h2
  show ((setCell b.data i j (some v)).map (fun row => (row.map (cellRefs root)).sum)).sum = _
  rw [setCell]
  simp only [blockRefs]
  simp only [] at h1 h2 ⊢
  omega

theorem blockRefs_eraseValue (root : Nat) (b : AqlItemBlock) (r j : Nat) :
    blockRefs root (b.eraseValue r j) + cellRefs root (b.getValueReference r j)
      = blockRefs root b := by
  simp only [blockRefs, eraseValue_data]
  by_cases hr : r < b.data.length
  · by_cases hj : j < (b.data.getD r []).length
    · have h1 := sum_map_set (fun row => (row.map (cellRefs root)).sum) b.data r
        ((b.data.getD r []).set j none) [] hr
      have h2 := sum_map_set (cellRefs root) (b.data.getD r []) j none none hj
      rw [cellRefs_none] at h2
      rw [setCell]
      have hcell : b.getValueReference r j = (b.data.getD r []).getD j none := rfl
      rw [hcell]
      simp only [] at h1 h2 ⊢
      omega
    · have hrow : (b.data.getD r []).set j none = b.data.getD r [] :=
        List.set_eq_of_length_le (by omega)
      have h1 := sum_map_set (fun row => (row.map (cellRefs root)).sum) b.data r
        ((b.data.getD r []).set j none) [] hr
      rw [hrow] at h1
      have hnone : b.getValueReference r j = none := by
        rw [getValueReference_data,
          getD_of_length_le (b.data.getD r []) j none (by omega)]
      rw [hnone, cellRefs_none, setCell, hrow]
      simp only [] at h1 ⊢
      omega
  · have hnone : b.getValueReference r j = none := by
      rw [getValueReference_data, getD_of_length_le b.data r [] (by omega)]
      rfl
    rw [hnone, cellRefs_none, setCell, List.set_eq_of_length_le (by omega)]
    omega

theorem buffersRefs_eraseBuf (root : Nat) (buffer : List AqlItemBlock) (b r j : Nat)
    (hb : b < buffer.length) :
    buffersRefs root (eraseBuf buffer b r j) + cellRefs root (cellAt buffer (b, r) j)
      = buffersRefs root buffer := by
  have h1 := buffersRefs_set root buffer b
    ((buffer.getD b (requestBlock 0 0)).eraseValue r j) hb
  have h2 := blockRefs_eraseValue root (buffer.getD b (requestBlock 0 0)) r j
  have hcell : cellAt buffer (b, r) j
      = (buffer.getD b (requestBlock 0 0)).getValueReference r j := rfl
  rw [eraseBuf] at *
  rw [hcell]
  omega

theorem buffersRefs_steal_set (root : Nat) (buffer : List AqlItemBlock) (k : Nat)
    (v : AqlValue) (hk : k < buffer.length) :
    buffersRefs root (buffer.set k ((buffer.getD k (requestBlock 0 0)).steal v))
      = buffersRefs root buffer := by
  have h1 := buffersRefs_set root buffer k
    ((buffer.getD k (requestBlock 0 0)).steal v) hk
  have h2 : blockRefs root ((buffer.getD k (requestBlock 0 0)).steal v)
      = blockRefs root (buffer.getD k (requestBlock 0 0)) := rfl
  omega

theorem cellAt_steal_set (buffer : List AqlItemBlock) (k : Nat) (v : AqlValue)
    (c2 : Coord) (j2 : Nat) (hk : k < buffer.length) :
    cellAt (buffer.set k ((buffer.getD k (requestBlock 0 0)).steal v)) c2 j2
      = cellAt buffer c2 j2 := by
  rw [cellAt, cellAt]
  by_cases hc : c2.1 = k
  · rw [hc, getD_set_self _ _ _ _ hk]
    rfl
  · rw [getD_set_ne _ _ _ _ _ (fun he => hc he.symm)]

theorem refs_transfer_core (root : Nat) (st : RebuildState) (src : Coord) (i j : Nat)
    (a w : AqlValue) (hc : cellAt st.buffer src j = some a)
    (hw : valRoot w = valRoot a)
    (hi : i < st.cur.data.length) (hj : j < (st.cur.data.getD i []).length)
    (hcell : st.cur.getValueReference i j = none) (buffer2 : List AqlItemBlock)
    (hb2 : ∀ (c2 : Coord) (j2 : Nat), cellAt buffer2 c2 j2 = cellAt st.buffer c2 j2)
    (hrefs2 : buffersRefs root buffer2 = buffersRefs root st.buffer)
    (hlen2 : buffer2.length = st.buffer.length) :
    buffersRefs root (eraseBuf buffer2 src.1 src.2 j) + cellRefs root (cellAt st.buffer src j)
        = buffersRefs root st.buffer
    ∧ blockRefs root (st.cur.setValue i j w)
        = blockRefs root st.cur + cellRefs root (cellAt st.buffer src j)
    ∧ (∀ (c2 : Coord) (j2 : Nat), ¬(c2 = src ∧ j2 = j) →
        cellAt (eraseBuf buffer2 src.1 src.2 j) c2 j2 = cellAt st.buffer c2 j2)
    ∧ (st.cur.setValue i j w).data.length = st.cur.data.length
    ∧ (∀ i2, ((st.cur.setValue i j w).data.getD i2 []).length
        = (st.cur.data.getD i2 []).length)
    ∧ (∀ i2 j2, ¬(i2 = i ∧ j2 = j) →
        (st.cur.setValue i j w).getValueReference i2 j2
          = st.cur.getValueReference i2 j2) := by
  have hb := cellAt_some_bounds st.buffer src j a hc
  have hsrc : ((src.1 : Nat), (src.2 : Nat)) = src := rfl
  refine ⟨?_, ?_, ?_, ?_, ?_, ?_⟩
  · have he := buffersRefs_eraseBuf root buffer2 src.1 src.2 j (by omega)
    rw [hsrc, hb2 src j] at he
    omega
  · rw [blockRefs_setValue root st.cur i j w hi hj hcell, hc,
      cellRefs_eq_root, cellRefs_eq_root, hw]
  · intro c2 j2 hne
    rw [cellAt_eraseBuf_ne buffer2 src.1 src.2 j c2 j2 (by
        intro hcon
        apply hne
        refine ⟨?_, hcon.2⟩
        rw [← hsrc, hcon.1]), hb2]
  · simp [AqlItemBlock.setValue, setCell]
  · intro i2
    show ((setCell st.cur.data i j (some w)).getD i2 []).length = _
    rw [setCell]
    by_cases h2 : i2 = i
    · subst h2
      rw [getD_set_self _ _ _ _ hi, List.length_set]
    · rw [getD_set_ne _ _ _ _ _ (fun he => h2 he.symm)]
  · intro i2 j2 hne
    exact getValueReference_setValue_ne st.cur i j i2 j2 w hne

theorem cacheFind_root (cache : List (AqlValue × AqlValue)) (a cached : AqlValue)
    (hcache : CacheRootsOk cache) (hf : cacheFind cache a = some cached) :
    valRoot cached = valRoot a := by
  rw [cacheFind] at hf
  rcases hfind : cache.find? (fun p => p.1 == a) with _ | p
  · rw [hfind] at hf
    exact Option.noConfusion hf
  · rw [hfind] at hf
    have hm := List.mem_of_find?_eq_some hfind
    have hp := List.find?_some hfind
    have h1 : p.1 = a := by simpa using hp
    have h2 := hcache p hm
    simp only [Option.some.injEq] at hf
    rw [← hf, ← h1, h2]

theorem cacheRootsOk_append (cache : List (AqlValue × AqlValue)) (a b : AqlValue)
    (hcache : CacheRootsOk cache) (hab : valRoot a = valRoot b) :
    CacheRootsOk (cache ++ [(a, b)]) := by
  intro p hp
  rcases List.mem_append.mp hp with h | h
  · exact hcache p h
  · simp only [List.mem_singleton] at h
    rw [h]
    exact hab

theorem processCell_refs (root : Nat) (faults : FaultOracle) (st st1 : RebuildState)
    (src : Coord) (i j : Nat) (evs : List RebuildEvent)
    (hrun : processCell faults st src i j = .ok (st1, evs))
    (hcache : CacheRootsOk st.cache)
    (hi : i < st.cur.data.length) (hj : j < (st.cur.data.getD i []).length)
    (hcell : st.cur.getValueReference i j = none) :
    buffersRefs root st1.buffer + cellRefs root (cellAt st.buffer src j)
        = buffersRefs root st.buffer
    ∧ blockRefs root st1.cur = blockRefs root st.cur + cellRefs root (cellAt st.buffer src j)
    ∧ (∀ (c2 : Coord) (j2 : Nat), ¬(c2 = src ∧ j2 = j) →
        cellAt st1.buffer c2 j2 = cellAt st.buffer c2 j2)
    ∧ st1.cur.data.length = st.cur.data.length
    ∧ (∀ i2, (st1.cur.data.getD i2 []).length = (st.cur.data.getD i2 []).length)
    ∧ (∀ i2 j2, ¬(i2 = i ∧ j2 = j) →
        st1.cur.getValueReference i2 j2 = st.cur.getValueReference i2 j2)
    ∧ CacheRootsOk st1.cache := by
  rcases hc : cellAt st.buffer src j with _ | a
  · unfold processCell at hrun
    rw [hc] at hrun
    simp only [Except.ok.injEq, Prod.mk.injEq] at hrun
    rw [← hrun.1]
    exact ⟨by simp [cellRefs_none], by simp [cellRefs_none], fun _ _ _ => rfl, rfl,
      fun _ => rfl, fun _ _ _ => rfl, hcache⟩
  · have hb := cellAt_some_bounds st.buffer src j a hc
    unfold processCell at hrun
    rw [hc] at hrun
    by_cases hd : a.requiresDestruction = true
    · rcases hf : cacheFind st.cache a with _ | cached
      · by_cases hv : (st.buffer.getD src.1 (requestBlock 0 0)).valueCount a = 0
        · simp only [hd, hf, hv, if_true, ite_true] at hrun
          by_cases hf1 : faults .doSortingCache = true
          · rw [if_pos hf1] at hrun
            exact absurd hrun (by simp)
          · rw [if_neg hf1] at hrun
            by_cases hf2 : faults .doSortingNext1 = true
            · rw [if_pos hf2] at hrun
              exact absurd hrun (by simp)
            · rw [if_neg hf2] at hrun
              simp only [Except.ok.injEq, Prod.mk.injEq] at hrun
              rw [← hrun.1]
              have core := refs_transfer_core root st src i j a (a.clone st.fresh) hc
                (valRoot_clone a st.fresh) hi hj hcell st.buffer (fun _ _ => rfl) rfl rfl
              rw [hc] at core
              exact ⟨core.1, core.2.1, core.2.2.1, core.2.2.2.1, core.2.2.2.2.1,
                core.2.2.2.2.2,
                cacheRootsOk_append st.cache a (a.clone st.fresh) hcache
                  (valRoot_clone a st.fresh).symm⟩
        · simp only [hd, hf, hv, if_true, ite_true, if_false, ite_false] at hrun
          by_cases hf3 : faults .doSortingNext2 = true
          · rw [if_pos hf3] at hrun
            exact absurd hrun (by simp)
          · rw [if_neg hf3] at hrun
            simp only [Except.ok.injEq, Prod.mk.injEq] at hrun
            rw [← hrun.1]
            have core := refs_transfer_core root st src i j a a hc rfl hi hj hcell
              (st.buffer.set src.1 ((st.buffer.getD src.1 (requestBlock 0 0)).steal a))
              (fun c2 j2 => cellAt_steal_set st.buffer src.1 a c2 j2 hb.1)
              (buffersRefs_steal_set root st.buffer src.1 a hb.1)
              (by simp)
            rw [hc] at core
            exact ⟨core.1, core.2.1, core.2.2.1, core.2.2.2.1, core.2.2.2.2.1,
              core.2.2.2.2.2, cacheRootsOk_append st.cache a a hcache rfl⟩
      · simp only [hd, hf, if_true, ite_true] at hrun
        simp only [Except.ok.injEq, Prod.mk.injEq] at hrun
        rw [← hrun.1]
        have core := refs_transfer_core root st src i j a cached hc
          (cacheFind_root st.cache a cached hcache hf) hi hj hcell st.buffer
          (fun _ _ => rfl) rfl rfl
        rw [hc] at core
        exact ⟨core.1, core.2.1, core.2.2.1, core.2.2.2.1, core.2.2.2.2.1,
          core.2.2.2.2.2, hcache⟩
    · simp only [hd, if_false, Bool.false_eq_true, ite_false] at hrun
      by_cases hf1 : faults .doSortingCache = true
      · rw [if_pos hf1] at hrun
        exact absurd hrun (by simp)
      · rw [if_neg hf1] at hrun
        by_cases hf2 : faults .doSortingNext1 = true
        · rw [if_pos hf2] at hrun
          exact absurd hrun (by simp)
        · rw [if_neg hf2] at hrun
          by_cases hf3 : faults .doSortingNext2 = true
          · rw [if_pos hf3] at hrun
            exact absurd hrun (by simp)
          · rw [if_neg hf3] at hrun
            simp only [Except.ok.injEq, Prod.mk.injEq] at hrun
            rw [← hrun.1]
            have core := refs_transfer_core root st src i j a a hc rfl hi hj hcell
              st.buffer (fun _ _ => rfl) rfl rfl
            rw [hc] at core
            exact ⟨core.1, core.2.1, core.2.2.1, core.2.2.2.1, core.2.2.2.2.1,
              core.2.2.2.2.2, hcache⟩

theorem processRegs_refs (root : Nat) (faults : FaultOracle) (src : Coord) (i : Nat) :
    ∀ (js : List Nat) (st st1 : RebuildState),
      processRegs faults st src i js = .ok st1 →
      CacheRootsOk st.cache →
      js.Nodup →
      i < st.cur.data.length →
      (∀ j ∈ js, j < (st.cur.data.getD i []).length) →
      (∀ j ∈ js, st.cur.getValueReference i j = none) →
      buffersRefs root st1.buffer
          + (js.map (fun j => cellRefs root (cellAt st.buffer src j))).sum
        = buffersRefs root st.buffer
      ∧ blockRefs root st1.cur = blockRefs root st.cur
          + (js.map (fun j => cellRefs root (cellAt st.buffer src j))).sum
      ∧ (∀ (c2 : Coord) (j2 : Nat), ¬(c2 = src ∧ j2 ∈ js) →
          cellAt st1.buffer c2 j2 = cellAt st.buffer c2 j2)
      ∧ st1.cur.data.length = st.cur.data.length
      ∧ (∀ i2, (st1.cur.data.getD i2 []).length = (st.cur.data.getD i2 []).length)
      ∧ (∀ i2 j2, ¬(i2 = i ∧ j2 ∈ js) →
          st1.cur.getValueReference i2 j2 = st.cur.getValueReference i2 j2)
      ∧ CacheRootsOk st1.cache := by
  intro js
  induction js with
  | nil =>
    intro st st1 h hcache _ _ _ _
    cases h
    exact ⟨by simp, by simp, fun _ _ _ => rfl, rfl, fun _ => rfl, fun _ _ _ => rfl, hcache⟩
  | cons j js ih =>
    intro st st1 h hcache hnd hi hjs hnone
    unfold processRegs at h
    split at h
    · exact absurd h (by simp)
    · rename_i st2 evs heq
      have hcellL := processCell_refs root faults st st2 src i j evs heq hcache hi
        (hjs j (by simp)) (hnone j (by simp))
      have hnd2 := (List.nodup_cons.mp hnd)
      have hrec := ih st2 st1 h hcellL.2.2.2.2.2.2
        hnd2.2
        (by rw [hcellL.2.2.2.1]; exact hi)
        (by
          intro j2 hj2
          rw [hcellL.2.2.2.2.1 i]
          exact hjs j2 (by simp [hj2]))
        (by
          intro j2 hj2
          rw [hcellL.2.2.2.2.2.1 i j2 (by
            intro hcon
            exact hnd2.1 (hcon.2 ▸ hj2))]
          exact hnone j2 (by simp [hj2]))
      have hsum : (js.map (fun j2 => cellRefs root (cellAt st2.buffer src j2))).sum
          = (js.map (fun j2 => cellRefs root (cellAt st.buffer src j2))).sum := by
        congr 1
        apply List.map_congr_left
        intro j2 hj2
        rw [hcellL.2.2.1 src j2 (by
          intro hcon
          exact hnd2.1 (hcon.2 ▸ hj2))]
      refine ⟨?_, ?_, ?_, ?_, ?_, ?_, hrec.2.2.2.2.2.2⟩
      · have h1 := hrec.1
        rw [hsum] at h1
        have h2 := hcellL.1
        simp only [List.map_cons, List.sum_cons]
        omega
      · have h1 := hrec.2.1
        rw [hsum] at h1
        have h2 := hcellL.2.1
        simp only [List.map_cons, List.sum_cons]
        omega
      · intro c2 j2 hne
        rw [hrec.2.2.1 c2 j2 (by
          intro hcon
          exact hne ⟨hcon.1, by simp [hcon.2]⟩)]
        rw [hcellL.2.2.1 c2 j2 (by
          intro hcon
          exact hne ⟨hcon.1, by simp [hcon.2]⟩)]
      · rw [hrec.2.2.2.1, hcellL.2.2.2.1]
      · intro i2
        rw [hrec.2.2.2.2.1 i2, hcellL.2.2.2.2.1 i2]
      · intro i2 j2 hne
        rw [hrec.2.2.2.2.2.1 i2 j2 (by
          intro hcon
          exact hne ⟨hcon.1, by simp [hcon.2]⟩)]
        rw [hcellL.2.2.2.2.2.1 i2 j2 (by
          intro hcon
          exact hne ⟨hcon.1, by simp [hcon.2]⟩)]

theorem processRows_refs (root : Nat) (faults : FaultOracle) (nr : Nat) :
    ∀ (cs : List Coord) (st st1 : RebuildState) (i : Nat),
      processRows faults nr st i cs = .ok st1 →
      CacheRootsOk st.cache →
      cs.Nodup →
      i + cs.length ≤ st.cur.data.length →
      (∀ i2, i2 < st.cur.data.length → (st.cur.data.getD i2 []).length = nr) →
      (∀ i2 j2, i ≤ i2 → st.cur.getValueReference i2 j2 = none) →
      buffersRefs root st1.buffer
          + (cs.map (fun c => rowRefsAt root st.buffer c nr)).sum
        = buffersRefs root st.buffer
      ∧ blockRefs root st1.cur = blockRefs root st.cur
          + (cs.map (fun c => rowRefsAt root st.buffer c nr)).sum
      ∧ (∀ (c2 : Coord) (j2 : Nat), c2 ∉ cs →
          cellAt st1.buffer c2 j2 = cellAt st.buffer c2 j2)
      ∧ st1.cur.data.length = st.cur.data.length := by
  intro cs
  induction cs with
  | nil =>
    intro st st1 i h _ _ _ _ _
    cases h
    exact ⟨by simp, by simp, fun _ _ _ => rfl, rfl⟩
  | cons c cs ih =>
    intro st st1 i h hcache hnd hlen hrows hnone
    unfold processRows at h
    split at h
    · exact absurd h (by simp)
    · rename_i st2 heq
      have hiin : i < st.cur.data.length := by
        have := List.length_cons c cs
        omega
      have hrowlen : (st.cur.data.getD i []).length = nr := hrows i hiin
      have hregs := processRegs_refs root faults c i (List.range nr) st st2 heq hcache
        (List.nodup_range nr) hiin
        (by
          intro j hj
          rw [hrowlen]
          exact List.mem_range.mp hj)
        (fun j _ => hnone i j (le_refl i))
      have hnd2 := List.nodup_cons.mp hnd
      have hrec := ih st2 st1 (i + 1) h hregs.2.2.2.2.2.2 hnd2.2
        (by
          rw [hregs.2.2.2.1]
          have := List.length_cons c cs
          omega)
        (by
          intro i2 hi2
          rw [hregs.2.2.2.2.1 i2]
          apply hrows
          rw [← hregs.2.2.2.1]
          exact hi2)
        (by
          intro i2 j2 hi2
          rw [hregs.2.2.2.2.2.1 i2 j2 (by
            intro hcon
            omega)]
          exact hnone i2 j2 (by omega))
      have hrow_eq : rowRefsAt root st.buffer c nr
          = ((List.range nr).map (fun j => cellRefs root (cellAt st.buffer c j))).sum := rfl
      have hsum : (cs.map (fun c2 => rowRefsAt root st2.buffer c2 nr)).sum
          = (cs.map (fun c2 => rowRefsAt root st.buffer c2 nr)).sum := by
        congr 1
        apply List.map_congr_left
        intro c2 hc2
        rw [rowRefsAt, rowRefsAt]
        congr 1
        apply List.map_congr_left
        intro j2 _
        rw [hregs.2.2.1 c2 j2 (by
          intro hcon
          exact hnd2.1 (hcon.1 ▸ hc2))]
      refine ⟨?_, ?_, ?_, ?_⟩
      · have h1 := hrec.1
        rw [hsum] at h1
        have h2 := hregs.1
        rw [← hrow_eq] at h2
        simp only [List.map_cons, List.sum_cons]
        omega
      · have h1 := hrec.2.1
        rw [hsum] at h1
        have h2 := hregs.2.1
        rw [← hrow_eq] at h2
        simp only [List.map_cons, List.sum_cons]
        omega
      · intro c2 j2 hne
        rw [hrec.2.2.1 c2 j2 (by
          intro hcon
          exact hne (by simp [hcon]))]
        rw [hregs.2.2.1 c2 j2 (by
          intro hcon
          exact hne (by simp [hcon.1]))]
      · rw [hrec.2.2.2, hregs.2.2.2.1]

theorem requestBlock_row (k nr i2 : Nat) (h : i2 < k) :
    (requestBlock k nr).data.getD i2 [] = List.replicate nr none := by
  rw [requestBlock]
  show (List.replicate k (List.replicate nr none)).getD i2 [] = _
  rw [List.getD_eq_getElem?_getD, List.getElem?_replicate_of_lt h]
  rfl

theorem requestBlock_cell_none (k nr i2 j2 : Nat) :
    (requestBlock k nr).getValueReference i2 j2 = none := by
  rw [getValueReference_data]
  by_cases h : i2 < k
  · rw [requestBlock_row k nr i2 h, List.getD_eq_getElem?_getD, List.getElem?_replicate]
    split <;> rfl
  · rw [show (requestBlock k nr).data = List.replicate k (List.replicate nr none) from rfl]
    rw [getD_of_length_le (List.replicate k (List.replicate nr none)) i2 [] (by
      simp only [List.length_replicate]
      omega)]
    rfl

theorem rebuildLoop_refs (root : Nat) (faults : FaultOracle) (bs nr : Nat) :
    ∀ (fuel : Nat) (coords : List Coord) (acc acc' : RebuildAcc),
      coords.Nodup →
      rebuildLoop faults bs nr fuel acc coords = .ok acc' →
      buffersRefs root acc'.buffer
          + (coords.map (fun c => rowRefsAt root acc.buffer c nr)).sum
        = buffersRefs root acc.buffer
      ∧ buffersRefs root acc'.done = buffersRefs root acc.done
          + (coords.map (fun c => rowRefsAt root acc.buffer c nr)).sum
      ∧ (∀ (c2 : Coord) (j2 : Nat), c2 ∉ coords →
          cellAt acc'.buffer c2 j2 = cellAt acc.buffer c2 j2) := by
  intro fuel
  induction fuel with
  | zero =>
    intro coords acc acc' hnd h
    match coords, h with
    | [], h =>
      cases h
      exact ⟨by simp, by simp, fun _ _ _ => rfl⟩
  | succ fuel ih =>
    intro coords acc acc' hnd h
    match coords, h with
    | [], h =>
      cases h
      exact ⟨by simp, by simp, fun _ _ _ => rfl⟩
    | c :: cs, h =>
      unfold rebuildLoop at h
      split at h
      · exact absurd h (by simp)
      · split at h
        · exact absurd h (by simp)
        · rename_i st heq
          have hk : 0 < min (c :: cs).length bs ∨ bs = 0 := by
            by_cases hbs : bs = 0
            · exact Or.inr hbs
            · left
              simp only [List.length_cons]
              omega
          have htake : ((c :: cs).take (min (c :: cs).length bs)).Nodup :=
            (List.take_sublist _ _).nodup hnd
          have hlen_take : ((c :: cs).take (min (c :: cs).length bs)).length
              = min (c :: cs).length bs := by
            rw [List.length_take]
            omega
          have hrows := processRows_refs root faults nr
            ((c :: cs).take (min (c :: cs).length bs))
            ⟨acc.buffer, requestBlock (min (c :: cs).length bs) nr, [], acc.fresh⟩ st 0 heq
            (fun p hp => absurd hp (List.not_mem_nil p))
            htake
            (by
              rw [hlen_take]
              have hreq : (requestBlock (min (c :: cs).length bs) nr).data.length
                  = min (c :: cs).length bs := by simp [requestBlock]
              show 0 + min (c :: cs).length bs
                  ≤ (requestBlock (min (c :: cs).length bs) nr).data.length
              omega)
            (by
              intro i2 hi2
              have hreq : (requestBlock (min (c :: cs).length bs) nr).data.length
                  = min (c :: cs).length bs := by simp [requestBlock]
              have hi2b : i2 < min (c :: cs).length bs := by
                have h3 : i2 < (requestBlock (min (c :: cs).length bs) nr).data.length := hi2
                omega
              show ((requestBlock (min (c :: cs).length bs) nr).data.getD i2 []).length = nr
              rw [requestBlock_row _ nr i2 hi2b]
              simp)
            (fun i2 j2 _ => requestBlock_cell_none _ nr i2 j2)
          dsimp only [] at hrows
          have hdisj : List.Disjoint ((c :: cs).take (min (c :: cs).length bs))
              ((c :: cs).drop (min (c :: cs).length bs)) := by
            apply List.disjoint_of_nodup_append
            rw [List.take_append_drop]
            exact hnd
          have hdropnd : ((c :: cs).drop (min (c :: cs).length bs)).Nodup :=
            (List.drop_sublist _ _).nodup hnd
          have hrec := ih ((c :: cs).drop (min (c :: cs).length bs))
            ⟨st.buffer, acc.done ++ [st.cur], st.fresh⟩ acc' hdropnd h
          dsimp only [] at hrec
          have hsum : (((c :: cs).drop (min (c :: cs).length bs)).map
                (fun c2 => rowRefsAt root st.buffer c2 nr)).sum
              = (((c :: cs).drop (min (c :: cs).length bs)).map
                (fun c2 => rowRefsAt root acc.buffer c2 nr)).sum := by
            congr 1
            apply List.map_congr_left
            intro c2 hc2
            rw [rowRefsAt, rowRefsAt]
            congr 1
            apply List.map_congr_left
            intro j2 _
            rw [hrows.2.2.1 c2 j2 (fun hmem => hdisj hmem hc2)]
          have hsplit : ((c :: cs).map (fun c2 => rowRefsAt root acc.buffer c2 nr)).sum
              = (((c :: cs).take (min (c :: cs).length bs)).map
                  (fun c2 => rowRefsAt root acc.buffer c2 nr)).sum
                + (((c :: cs).drop (min (c :: cs).length bs)).map
                  (fun c2 => rowRefsAt root acc.buffer c2 nr)).sum := by
            rw [← List.sum_append, ← List.map_append, List.take_append_drop]
          have hcurRefs : blockRefs root st.cur
              = (((c :: cs).take (min (c :: cs).length bs)).map
                  (fun c2 => rowRefsAt root acc.buffer c2 nr)).sum := by
            have h2 := hrows.2.1
            rw [blockRefs_requestBlock] at h2
            simpa using h2
          have hdone : buffersRefs root (acc.done ++ [st.cur])
              = buffersRefs root acc.done + blockRefs root st.cur := by
            show ((acc.done ++ [st.cur]).map (blockRefs root)).sum = _
            rw [List.map_append, List.sum_append]
            simp [buffersRefs]
          refine ⟨?_, ?_, ?_⟩
          · have h1 := hrec.1
            rw [hsum] at h1
            have h2 := hrows.1
            rw [hsplit]
            simp only at h1 h2 ⊢
            omega
          · have h1 := hrec.2.1
            rw [hsum] at h1
            rw [hdone] at h1
            rw [hcurRefs] at h1
            rw [hsplit]
            omega
          · intro c2 j2 hne
            have hnotdrop : c2 ∉ (c :: cs).drop (min (c :: cs).length bs) := by
              intro hmem
              exact hne (List.mem_of_mem_drop hmem)
            have hnottake : c2 ∉ (c :: cs).take (min (c :: cs).length bs) := by
              intro hmem
              exact hne (List.mem_of_mem_take hmem)
            rw [hrec.2.2 c2 j2 hnotdrop]
            exact hrows.2.2.1 c2 j2 hnottake

theorem idealCoords_nodup (buffer : List AqlItemBlock) : (idealCoords buffer).Nodup := by
  rw [idealCoords]
  apply List.nodup_flatMap.mpr
  constructor
  · intro idx _
    exact (List.nodup_range _).map (fun a b h => by injection h)
  · apply List.Pairwise.imp ?_ (List.pairwise_lt_range buffer.length)
    intro idx idx' hlt c hc hc'
    rcases List.mem_map.mp hc with ⟨i, _, rfl⟩
    rcases List.mem_map.mp hc' with ⟨i', _, heq⟩
    have : idx' = idx := congrArg Prod.fst heq
    omega

theorem sum_map_getD_of_le {α : Type} (f : α → Nat) (d : α) (hd : f d = 0) :
    ∀ (l : List α) (n : Nat), l.length ≤ n →
      ((List.range n).map (fun i => f (l.getD i d))).sum = (l.map f).sum := by
  intro l n hn
  obtain ⟨k, rfl⟩ := Nat.exists_eq_add_of_le hn
  rw [List.range_add, List.map_append, List.sum_append]
  have h1 : ((List.range l.length).map (fun i => f (l.getD i d))).sum = (l.map f).sum := by
    rw [map_getD_range]
  have h2 : (((List.range k).map (fun i => l.length + i)).map
      (fun i => f (l.getD i d))).sum = 0 := by
    apply List.sum_eq_zero
    intro x hx
    rcases List.mem_map.mp hx with ⟨y, hy, rfl⟩
    rcases List.mem_map.mp hy with ⟨i, _, rfl⟩
    rw [getD_of_length_le l _ d (by omega)]
    exact hd
  omega

theorem rowRefsAt_eq_rowSum (root : Nat) (buffer : List AqlItemBlock) (idx i nr : Nat)
    (hrow : ((buffer.getD idx (requestBlock 0 0)).data.getD i []).length ≤ nr) :
    rowRefsAt root buffer (idx, i) nr
      = (((buffer.getD idx (requestBlock 0 0)).data.getD i []).map (cellRefs root)).sum := by
  rw [rowRefsAt]
  calc ((List.range nr).map (fun j => cellRefs root (cellAt buffer (idx, i) j))).sum
      = ((List.range nr).map (fun j => cellRefs root
          (((buffer.getD idx (requestBlock 0 0)).data.getD i []).getD j none))).sum := rfl
    _ = _ := sum_map_getD_of_le (cellRefs root) none rfl _ nr hrow

theorem idealCoords_rowRefs_sum (root nr : Nat) (buffer : List AqlItemBlock)
    (hrows : ∀ blk ∈ buffer, ∀ row ∈ blk.data, row.length ≤ nr) :
    ((idealCoords buffer).map (fun c => rowRefsAt root buffer c nr)).sum
      = buffersRefs root buffer := by
  rw [idealCoords, List.map_flatMap, List.flatMap_def, List.sum_flatten, List.map_map]
  have hstep : (List.range buffer.length).map
      (List.sum ∘ fun idx => ((List.range (buffer.getD idx (requestBlock 0 0)).size).map
          (fun i => ((idx, i) : Coord))).map (fun c => rowRefsAt root buffer c nr))
      = (List.range buffer.length).map
        (fun idx => blockRefs root (buffer.getD idx (requestBlock 0 0))) := by
    apply List.map_congr_left
    intro idx hidx
    have hlt : idx < buffer.length := List.mem_range.mp hidx
    have hblk : buffer.getD idx (requestBlock 0 0) ∈ buffer :=
      getD_mem_of_lt buffer _ idx hlt
    show (((List.range (buffer.getD idx (requestBlock 0 0)).size).map
        (fun i => ((idx, i) : Coord))).map (fun c => rowRefsAt root buffer c nr)).sum = _
    rw [List.map_map]
    have hinner : (List.range (buffer.getD idx (requestBlock 0 0)).size).map
        ((fun c => rowRefsAt root buffer c nr) ∘ fun i => ((idx, i) : Coord))
        = (List.range (buffer.getD idx (requestBlock 0 0)).size).map
          (fun i => (((buffer.getD idx (requestBlock 0 0)).data.getD i []).map
            (cellRefs root)).sum) := by
      apply List.map_congr_left
      intro i hi
      show rowRefsAt root buffer (idx, i) nr = _
      apply rowRefsAt_eq_rowSum
      apply hrows _ hblk
      apply getD_mem_of_lt
      exact List.mem_range.mp hi
    rw [hinner]
    rw [show (buffer.getD idx (requestBlock 0 0)).size
        = (buffer.getD idx (requestBlock 0 0)).data.length from rfl]
    rw [map_getD_range (fun row => (row.map (cellRefs root)).sum)
      ([] : List (Option AqlValue))]
    rfl
  rw [hstep]
  rw [map_getD_range (blockRefs root) (requestBlock 0 0)]
  rfl

theorem doSortingOrder_perm_ideal (buffer : List AqlItemBlock) (regs : List SortRegister)
    (hlen : buffer.length < U32) (hsz : ∀ blk ∈ buffer, blk.size < U32) :
    (doSortingOrder buffer regs).Perm (idealCoords buffer) := by
  rw [doSortingOrder, buildCoords_eq_ideal buffer hlen hsz]
  exact List.perm_insertionSort _ _

/-- C6: for every storage root, a successful `doSorting` pass moves every
buffered reference to that storage into the output batches exactly once: the
number of live cells whose value (original or clone) is rooted at that storage
across the output batches equals the number across the buffered input — no
reference leaked, none prematurely freed — regardless of how the cells are
distributed across output batches.  Preconditions: block count and block sizes
below `2^32` (so the coordinate array is exact) and no row wider than the
register count of the source batches. -/
theorem doSorting_refcount_preserved (root : Nat) (faults : FaultOracle) (stable : Bool)
    (regs : List SortRegister) (bs : Nat) (buffer out : List AqlItemBlock)
    (hlen : buffer.length < U32) (hsz : ∀ blk ∈ buffer, blk.size < U32)
    (hrows : ∀ blk ∈ buffer, ∀ row ∈ blk.data,
      row.length ≤ (buffer.headD (requestBlock 0 0)).nrRegs)
    (hok : doSorting faults stable regs bs buffer = .ok out) :
    buffersRefs root out = buffersRefs root buffer := by
  unfold doSorting at hok
  split at hok
  · exact Except.noConfusion hok
  · split at hok
    · exact Except.noConfusion hok
    · rename_i acc heq
      simp only [Except.ok.injEq] at hok
      subst hok
      have hperm := doSortingOrder_perm_ideal buffer regs hlen hsz
      have hnd : (doSortingOrder buffer regs).Nodup :=
        hperm.nodup_iff.mpr (idealCoords_nodup buffer)
      have hr := rebuildLoop_refs root faults bs (buffer.headD (requestBlock 0 0)).nrRegs
        (doSortingOrder buffer regs).length (doSortingOrder buffer regs)
        ⟨buffer, [], maxGen buffer + 1⟩ acc hnd heq
      have hsum : ((doSortingOrder buffer regs).map
          (fun c => rowRefsAt root buffer c (buffer.headD (requestBlock 0 0)).nrRegs)).sum
          = buffersRefs root buffer := by
        rw [(hperm.map _).sum_eq]
        exact idealCoords_rowRefs_sum root _ buffer hrows
      have h2 : buffersRefs root acc.done
          = buffersRefs root ([] : List AqlItemBlock)
            + ((doSortingOrder buffer regs).map
              (fun c => rowRefsAt root buffer c
                (buffer.headD (requestBlock 0 0)).nrRegs)).sum :=
        hr.2.1
      rw [h2, hsum]
      simp [buffersRefs]

/-- Closed instance of the C1 theorem: a three-row two-batch buffered set
sorted ascending by rank, with the concrete sorted output. -/
theorem doSorting_order_correct_witness :
    List.Chain' (fun x y => ourLessThan wbuf wregs y x = false) (doSortingOrder wbuf wregs)
    ∧ (([⟨1, [[some (.simple 1)], [some (.simple 2)], [some (.simple 3)]], []⟩]
          : List AqlItemBlock).map AqlItemBlock.size).sum
      = (doSortingOrder wbuf wregs).length :=
  doSorting_order_correct noFaults false wregs 10 wbuf
    [⟨1, [[some (.simple 1)], [some (.simple 2)], [some (.simple 3)]], []⟩]
    (by
      intro reg hreg v w
      simp only [wregs, List.mem_singleton] at hreg
      subst hreg
      show rankCmp v w < 0 ↔ 0 < rankCmp w v
      simp only [rankCmp]
      omega)
    (by
      intro reg hreg u v w h1 h2
      simp only [wregs, List.mem_singleton] at hreg
      subst hreg
      show rankCmp u w ≤ 0
      have h1b : rankCmp u v ≤ 0 := h1
      have h2b : rankCmp v w ≤ 0 := h2
      simp only [rankCmp] at h1b h2b ⊢
      omega)
    (by decide) (by decide)

/-- Closed instance of the C4 amended theorem: the cache-missing complex cell
of `c4state` with batch reference count 2 takes the steal branch. -/
theorem processCell_triage_witness :
    ∃ st1 evs, processCell noFaults c4state (0, 0) 0 0 = Except.ok (st1, evs)
      ∧ cellAt st1.buffer (0, 0) 0 = none
      ∧ ((c4state.buffer.getD 0 (requestBlock 0 0)).valueCount (.complex 5 0) ≠ 0 →
          st1.cur.getValueReference 0 0 = some (.complex 5 0)
          ∧ st1.cache = c4state.cache ++ [(.complex 5 0, .complex 5 0)]
          ∧ st1.fresh = c4state.fresh
          ∧ (st1.buffer.getD 0 (requestBlock 0 0)).valueCount (.complex 5 0) = 0
          ∧ evs = [.setDst 0 0 (.complex 5 0), .stealSrc 0 (.complex 5 0),
                   .eraseSrc 0 0 0, .cacheIns (.complex 5 0) (.complex 5 0)])
      ∧ ((c4state.buffer.getD 0 (requestBlock 0 0)).valueCount (.complex 5 0) = 0 →
          st1.cur.getValueReference 0 0 = some ((AqlValue.complex 5 0).clone c4state.fresh)
          ∧ st1.cache = c4state.cache
              ++ [(.complex 5 0, (AqlValue.complex 5 0).clone c4state.fresh)]
          ∧ st1.fresh = c4state.fresh + 1
          ∧ (∀ w, w ≠ AqlValue.complex 5 0 →
              (st1.buffer.getD 0 (requestBlock 0 0)).valueCount w
                = (c4state.buffer.getD 0 (requestBlock 0 0)).valueCount w)
          ∧ evs = [.cacheIns (.complex 5 0) ((AqlValue.complex 5 0).clone c4state.fresh),
                   .setDst 0 0 ((AqlValue.complex 5 0).clone c4state.fresh),
                   .eraseSrc 0 0 0]) :=
  processCell_triage c4state (0, 0) 0 0 (.complex 5 0)
    (by decide) (by decide) (by decide) (by decide) (by decide)

/-- Closed instance of the C6 theorem: the shared complex storage referenced
twice in `c4buffer` is referenced exactly twice across the sorted output. -/
theorem doSorting_refcount_preserved_witness :
    buffersRefs 5 [⟨1, [[some (.complex 5 0)], [some (.complex 5 0)]],
        [(.complex 5 0, 2)]⟩]
      = buffersRefs 5 c4buffer :=
  doSorting_refcount_preserved 5 noFaults true wregs 10 c4buffer
    [⟨1, [[some (.complex 5 0)], [some (.complex 5 0)]], [(.complex 5 0, 2)]⟩]
    (by decide) (by decide) (by decide) (by decide)

/-- Closed instance of the C7 theorem: three buffered rows chunked with batch
size 2 come out as batches of sizes 2 and 1 with the source register count. -/
theorem doSorting_row_counts_witness :
    (([⟨1, [[some (.simple 1)], [some (.simple 2)]], []⟩,
        ⟨1, [[some (.simple 3)]], []⟩] : List AqlItemBlock).map AqlItemBlock.size).sum
      = (wbuf.map AqlItemBlock.size).sum
    ∧ ([⟨1, [[some (.simple 1)], [some (.simple 2)]], []⟩,
        ⟨1, [[some (.simple 3)]], []⟩] : List AqlItemBlock).map AqlItemBlock.size
      = chunkSizes 2 (wbuf.map AqlItemBlock.size).sum
    ∧ ∀ blk ∈ ([⟨1, [[some (.simple 1)], [some (.simple 2)]], []⟩,
        ⟨1, [[some (.simple 3)]], []⟩] : List AqlItemBlock),
        blk.nrRegs = (wbuf.headD (requestBlock 0 0)).nrRegs :=
  doSorting_row_counts noFaults false wregs 2 wbuf
    [⟨1, [[some (.simple 1)], [some (.simple 2)]], []⟩,
     ⟨1, [[some (.simple 3)]], []⟩]
    (by decide) (by decide) (by decide)

/-- Closed instance of the C8 amended theorem: the steal-branch trace of the
`c4state` cell keeps every source erase after the destination assignment. -/
theorem processCell_dest_before_erase_witness :
    eraseOnlyAfterSet [.setDst 0 0 (.complex 5 0), .stealSrc 0 (.complex 5 0),
      .eraseSrc 0 0 0, .cacheIns (.complex 5 0) (.complex 5 0)] = true :=
  processCell_dest_before_erase noFaults c4state (0, 0) 0 0
    ⟨[⟨1, [[none], [some (.complex 5 0)]], []⟩],
     ⟨1, [[some (.complex 5 0)], [none]], [(.complex 5 0, 1)]⟩,
     [(.complex 5 0, .complex 5 0)], 1⟩
    [.setDst 0 0 (.complex 5 0), .stealSrc 0 (.complex 5 0),
     .eraseSrc 0 0 0, .cacheIns (.complex 5 0) (.complex 5 0)]
    (by decide)
    (by
      intro a ha hc
      have h3 : (some (AqlValue.complex 5 0) : Option AqlValue) = some a := ha
      injection h3 with h4
      subst h4
      rfl)
